import Mathlib

/-!
# Verification of the Wonton `Flat_Mesh_Wrapper` topology flattener

Shallow embedding of the unstructured-mesh topology flattener
(`Flat_Mesh_Wrapper` in `flat_mesh_wrapper.h`): CSR-style adjacency
encoding (`compute_offsets` and offset/count slicing), the 2D face
reconstruction in `make_index_maps` (canonical-key deduplication with
direction flags and owned-face bookkeeping), the 3D cell-to-node
derivation, the node-to-cell inversion, and the ownership query surface.

C++ `std::vector<int>` values are modelled as `List ℕ` (all values stored
in the relevant vectors are entity counts or entity indices, which are
nonnegative in every relevant execution); `std::map` is modelled as an
association list (keys inserted are pairwise distinct, so lookup agrees
with `std::map::find`); `std::set<int>` is modelled as a strictly sorted
list with ordered insertion, matching the in-order iteration of the C++
type.  Vector reads are modelled with `List.getD` (out-of-range behaviour
is undefined in the source; every theorem below uses reads only at
in-range positions).  The one out-of-range access analysed by a claim —
the write `nodeToCellTmp[n]` in `make_index_maps` — is modelled precisely
by an `Option`-valued update that fails out of range.
-/

namespace Wonton

/-! ## Generic list helpers (first-seen order, indexing, assoc lookup) -/

/-- Accumulate the elements of a list in first-seen order:
the result extends `acc` by each element of the list that is not
already present, in order of first occurrence. -/
def fsAux {α : Type} [DecidableEq α] (acc : List α) : List α → List α
  | [] => acc
  | x :: xs => fsAux (if x ∈ acc then acc else acc ++ [x]) xs

/-- Index of the first occurrence of an element in a list
(length of the list if absent). -/
def idxOf {α : Type} [DecidableEq α] (k : α) : List α → ℕ
  | [] => 0
  | x :: xs => if x = k then 0 else idxOf k xs + 1

theorem fsAux_append {α : Type} [DecidableEq α] (l₁ l₂ : List α) (acc : List α) :
    fsAux acc (l₁ ++ l₂) = fsAux (fsAux acc l₁) l₂ := by
  induction l₁ generalizing acc with
  | nil => rfl
  | cons x xs ih => simp only [List.cons_append, fsAux]; exact ih _

theorem mem_fsAux {α : Type} [DecidableEq α] {a : α} (l : List α) (acc : List α) :
    a ∈ fsAux acc l ↔ a ∈ acc ∨ a ∈ l := by
  induction l generalizing acc with
  | nil => simp [fsAux]
  | cons x xs ih =>
    simp only [fsAux]
    by_cases hx : x ∈ acc
    · rw [if_pos hx, ih]
      constructor
      · rintro (h | h)
        · exact Or.inl h
        · exact Or.inr (List.mem_cons_of_mem _ h)
      · rintro (h | h)
        · exact Or.inl h
        · rcases List.mem_cons.mp h with h' | h'
          · exact Or.inl (h' ▸ hx)
          · exact Or.inr h'
    · rw [if_neg hx, ih]
      simp only [List.mem_append, List.mem_singleton, List.mem_cons]
      tauto

theorem nodup_fsAux {α : Type} [DecidableEq α] (l : List α) (acc : List α)
    (h : acc.Nodup) : (fsAux acc l).Nodup := by
  induction l generalizing acc with
  | nil => exact h
  | cons x xs ih =>
    simp only [fsAux]
    by_cases hx : x ∈ acc
    · simpa [hx] using ih _ h
    · refine if_neg hx ▸ ih _ ?_
      simpa [List.nodup_append, hx] using h

theorem fsAux_extends {α : Type} [DecidableEq α] (l : List α) (acc : List α) :
    ∃ t, fsAux acc l = acc ++ t := by
  induction l generalizing acc with
  | nil => exact ⟨[], (List.append_nil acc).symm⟩
  | cons x xs ih =>
    simp only [fsAux]
    by_cases hx : x ∈ acc
    · simpa [hx] using ih acc
    · obtain ⟨t, ht⟩ := ih (acc ++ [x])
      exact ⟨[x] ++ t, by simp [hx, ht]⟩

theorem idxOf_append_of_mem {α : Type} [DecidableEq α] {k : α} {l : List α}
    (h : k ∈ l) (l' : List α) : idxOf k (l ++ l') = idxOf k l := by
  induction l with
  | nil => cases h
  | cons x xs ih =>
    by_cases hx : x = k
    · simp [idxOf, hx]
    · have : k ∈ xs := by
        rcases List.mem_cons.mp h with h' | h'
        · exact absurd h'.symm hx
        · exact h'
      simp [idxOf, hx, ih this]

theorem idxOf_append_of_not_mem {α : Type} [DecidableEq α] {k : α} {l : List α}
    (h : k ∉ l) (l' : List α) : idxOf k (l ++ l') = l.length + idxOf k l' := by
  induction l with
  | nil => simp [idxOf]
  | cons x xs ih =>
    have hx : x ≠ k := fun he => h (he ▸ List.mem_cons_self x xs)
    have hxs : k ∉ xs := fun hm => h (List.mem_cons_of_mem _ hm)
    simp [idxOf, hx, ih hxs, List.length_cons]
    omega

theorem idxOf_lt_length {α : Type} [DecidableEq α] {k : α} {l : List α}
    (h : k ∈ l) : idxOf k l < l.length := by
  induction l with
  | nil => cases h
  | cons x xs ih =>
    by_cases hx : x = k
    · simp [idxOf, hx]
    · have : k ∈ xs := by
        rcases List.mem_cons.mp h with h' | h'
        · exact absurd h'.symm hx
        · exact h'
      simp only [idxOf, if_neg hx, List.length_cons]
      exact Nat.succ_lt_succ (ih this)

theorem getD_idxOf {α : Type} [DecidableEq α] {k : α} {l : List α}
    (h : k ∈ l) (d : α) : l.getD (idxOf k l) d = k := by
  induction l with
  | nil => cases h
  | cons x xs ih =>
    by_cases hx : x = k
    · simp [idxOf, hx]
    · have : k ∈ xs := by
        rcases List.mem_cons.mp h with h' | h'
        · exact absurd h'.symm hx
        · exact h'
      rw [show idxOf k (x :: xs) = idxOf k xs + 1 by simp [idxOf, hx],
        List.getD_cons_succ]
      exact ih this

theorem idxOf_getD {α : Type} [DecidableEq α] {l : List α} (hn : l.Nodup)
    {i : ℕ} (hi : i < l.length) (d : α) : idxOf (l.getD i d) l = i := by
  induction l generalizing i with
  | nil => simp at hi
  | cons x xs ih =>
    cases i with
    | zero => simp [idxOf]
    | succ j =>
      have hj : j < xs.length := by simpa using hi
      have hmem : xs.getD j d ∈ xs := by
        rw [List.getD_eq_getElem _ _ hj]; exact List.getElem_mem _
      have hne : x ≠ xs.getD j d := by
        intro he
        exact (List.nodup_cons.mp hn).1 (he ▸ hmem)
      rw [List.getD_cons_succ]
      rw [show idxOf (xs.getD j d) (x :: xs) = idxOf (xs.getD j d) xs + 1 by
        simp only [idxOf, if_neg hne]]
      rw [ih (List.nodup_cons.mp hn).2 hj]

/-- `getD` within the left part of an append. -/
theorem getD_append_left {α : Type} {l l' : List α} {i : ℕ} (h : i < l.length)
    (d : α) : (l ++ l').getD i d = l.getD i d := by
  rw [List.getD_eq_getElem _ _ (by simp; omega), List.getD_eq_getElem _ _ h]
  exact List.getElem_append_left h

/-! ## `std::set<int>` model: strictly sorted list with ordered insertion -/

/-- Ordered insertion into a strictly sorted list, dropping duplicates.
Models `std::set<int>::insert`; iterating the set in order corresponds to
reading the resulting list front to back. -/
def setInsert (x : ℕ) : List ℕ → List ℕ
  | [] => [x]
  | y :: ys => if x < y then x :: y :: ys else if x = y then y :: ys else y :: setInsert x ys

theorem mem_setInsert (a x : ℕ) (l : List ℕ) :
    a ∈ setInsert x l ↔ a = x ∨ a ∈ l := by
  induction l with
  | nil => simp [setInsert]
  | cons y ys ih =>
    by_cases h1 : x < y
    · simp [setInsert, if_pos h1]
    · by_cases h2 : x = y
      · simp only [setInsert, if_neg h1, if_pos h2, List.mem_cons]
        subst h2; tauto
      · simp only [setInsert, if_neg h1, if_neg h2, List.mem_cons, ih]; tauto

theorem sorted_setInsert (x : ℕ) (l : List ℕ)
    (h : l.Pairwise (· < ·)) : (setInsert x l).Pairwise (· < ·) := by
  induction l with
  | nil => simp [setInsert]
  | cons y ys ih =>
    have hy : ∀ b ∈ ys, y < b := fun b hb => (List.pairwise_cons.mp h).1 b hb
    have hys : ys.Pairwise (· < ·) := (List.pairwise_cons.mp h).2
    by_cases h1 : x < y
    · simp only [setInsert, if_pos h1]
      refine List.pairwise_cons.mpr ⟨fun b hb => ?_, h⟩
      rcases List.mem_cons.mp hb with rfl | hb'
      · exact h1
      · exact h1.trans (hy b hb')
    · by_cases h2 : x = y
      · simpa [setInsert, if_neg h1, if_pos h2] using h
      · simp only [setInsert, if_neg h1, if_neg h2]
        refine List.pairwise_cons.mpr ⟨fun b hb => ?_, ih hys⟩
        rcases (mem_setInsert b x ys).mp hb with rfl | hb'
        · omega
        · exact hy b hb'

/-! ## `std::map<std::pair<int,int>, int>` model: association list -/

/-- Lookup in an association list; models `std::map::find` (the keys
inserted by `make_index_maps` are pairwise distinct, so insertion order
is irrelevant to lookups). -/
def mapFind (k : ℕ × ℕ) : List ((ℕ × ℕ) × ℕ) → Option ℕ
  | [] => none
  | kv :: rest => if kv.1 = k then some kv.2 else mapFind k rest

/-- The association list mapping each key of `ks` to `i +` its index. -/
def keyAssoc : List (ℕ × ℕ) → ℕ → List ((ℕ × ℕ) × ℕ)
  | [], _ => []
  | k :: ks, i => (k, i) :: keyAssoc ks (i + 1)

theorem keyAssoc_append (ks : List (ℕ × ℕ)) (k : ℕ × ℕ) (i : ℕ) :
    keyAssoc (ks ++ [k]) i = keyAssoc ks i ++ [(k, i + ks.length)] := by
  induction ks generalizing i with
  | nil => simp [keyAssoc]
  | cons k' ks' ih =>
    have h2 : i + 1 + ks'.length = i + (ks'.length + 1) := by omega
    calc keyAssoc ((k' :: ks') ++ [k]) i
        = (k', i) :: keyAssoc (ks' ++ [k]) (i + 1) := rfl
      _ = (k', i) :: (keyAssoc ks' (i + 1) ++ [(k, i + 1 + ks'.length)]) := by
          rw [ih]
      _ = keyAssoc (k' :: ks') i ++ [(k, i + (k' :: ks').length)] := by
          rw [h2]; simp [keyAssoc]

theorem mapFind_keyAssoc (ks : List (ℕ × ℕ)) (k : ℕ × ℕ) (i : ℕ) :
    mapFind k (keyAssoc ks i) =
      if k ∈ ks then some (i + idxOf k ks) else none := by
  induction ks generalizing i with
  | nil => simp [keyAssoc, mapFind]
  | cons k' ks' ih =>
    by_cases hk : k' = k
    · subst hk
      simp [keyAssoc, mapFind, idxOf]
    · have : (k ∈ k' :: ks') ↔ k ∈ ks' := by
        simp only [List.mem_cons]
        exact ⟨fun h => h.resolve_left (fun he => hk he.symm), Or.inr⟩
      simp only [keyAssoc, mapFind, if_neg hk, ih, this, idxOf, if_neg hk]
      by_cases hm : k ∈ ks'
      · simp only [if_pos hm]
        congr 1
        omega
      · simp [hm]

/-! ## `compute_offsets`: the adjacency (CSR) encoder

Faithful to the source:

    int compute_offsets(const std::vector<int>& counts,
                        std::vector<int>* offsets) {
      offsets->resize(counts.size());
      if (counts.size()) {
        (*offsets)[0] = 0;
        std::partial_sum(counts.begin(), counts.end()-1, offsets->begin()+1);
      }
    }

Note the output has the same length as `counts` (not `counts.length + 1`):
entry `0` is `0` and entry `i+1` is the partial sum of `counts[0..i]`,
with the final total never stored. -/

/-- `std::partial_sum` over a list, starting from accumulated value `acc`. -/
def partialSumFrom (acc : ℕ) : List ℕ → List ℕ
  | [] => []
  | x :: xs => (acc + x) :: partialSumFrom (acc + x) xs

/-- `Flat_Mesh_Wrapper::compute_offsets`. -/
def compute_offsets (counts : List ℕ) : List ℕ :=
  match counts with
  | [] => []
  | _ => 0 :: partialSumFrom 0 counts.dropLast

theorem length_partialSumFrom (acc : ℕ) (l : List ℕ) :
    (partialSumFrom acc l).length = l.length := by
  induction l generalizing acc with
  | nil => rfl
  | cons x xs ih => simp [partialSumFrom, ih]

theorem length_compute_offsets (counts : List ℕ) :
    (compute_offsets counts).length = counts.length := by
  cases counts with
  | nil => rfl
  | cons c cs =>
    simp [compute_offsets, length_partialSumFrom, List.length_dropLast]

theorem getD_partialSumFrom (acc : ℕ) (l : List ℕ) (i : ℕ) (hi : i < l.length) :
    (partialSumFrom acc l).getD i 0 = acc + (l.take (i + 1)).sum := by
  induction l generalizing acc i with
  | nil => simp at hi
  | cons x xs ih =>
    cases i with
    | zero => simp [partialSumFrom]
    | succ j =>
      have hj : j < xs.length := by simpa using hi
      simp only [partialSumFrom, List.getD_cons_succ, ih (acc + x) j hj,
        List.take_succ_cons, List.sum_cons]
      omega

/-- The offsets array stores, at each in-range position `i`, the sum of the
first `i` counts. -/
theorem compute_offsets_getD (counts : List ℕ) (i : ℕ) (hi : i < counts.length) :
    (compute_offsets counts).getD i 0 = (counts.take i).sum := by
  cases counts with
  | nil => simp at hi
  | cons c cs =>
    cases i with
    | zero => simp [compute_offsets]
    | succ j =>
      have hj : j < cs.length := by simpa using hi
      have hj' : j < (c :: cs).dropLast.length := by
        simp only [List.length_dropLast, List.length_cons]
        omega
      simp only [compute_offsets, List.getD_cons_succ,
        getD_partialSumFrom 0 _ j hj', Nat.zero_add]
      have : (c :: cs).dropLast.take (j + 1) = (c :: cs).take (j + 1) := by
        rw [List.dropLast_eq_take, List.take_take]
        congr 1
        simp only [List.length_cons]
        omega
      rw [this, List.take_succ_cons, List.sum_cons]

/-! ## CSR slicing (the `offset`/`count` read pattern of the queries) -/

/-- Slice `values[offsets[i] .. offsets[i]+counts[i])` — the access pattern
used by `cell_get_nodes`, `cell_get_faces_and_dirs`, `node_get_cells`, and
`face_get_nodes` (3D). -/
def csrSlice {α : Type} (counts : List ℕ) (values : List α) (i : ℕ) : List α :=
  ((values.drop ((compute_offsets counts).getD i 0)).take (counts.getD i 0))

/-- Dropping the flattened length of the first `i` blocks of a flattened
list of lists reaches block `i`. -/
theorem drop_sum_flatten {α : Type} (cells : List (List α)) (i : ℕ) (hi : i < cells.length) :
    cells.flatten.drop (((cells.map List.length).take i).sum) =
      (cells.drop i).flatten := by
  induction cells generalizing i with
  | nil => simp at hi
  | cons l ls ih =>
    cases i with
    | zero => simp
    | succ j =>
      have hj : j < ls.length := by simpa using hi
      simp only [List.map_cons, List.take_succ_cons, List.sum_cons,
        List.flatten_cons, List.drop_succ_cons]
      rw [List.drop_append]
      exact ih j hj

/-- Round-trip: slicing the CSR encoding of a list of lists returns the
original block (`[]` out of range, matching `counts.getD _ 0 = 0`). -/
theorem csrSlice_flatten {α : Type} (cells : List (List α)) (i : ℕ) :
    csrSlice (cells.map List.length) cells.flatten i = cells.getD i [] := by
  by_cases hi : i < cells.length
  · unfold csrSlice
    rw [compute_offsets_getD _ i (by simpa using hi),
      drop_sum_flatten cells i hi]
    rw [List.getD_eq_getElem _ _ (by simpa using hi),
      List.getD_eq_getElem _ _ hi]
    have hflat : (cells.drop i).flatten = cells[i] ++ (cells.drop (i + 1)).flatten := by
      rw [List.drop_eq_getElem_cons hi, List.flatten_cons]
    rw [List.getElem_map, hflat, List.take_left]
  · have h1 : (cells.map List.length).getD i 0 = 0 := by
      rw [List.getD_eq_default]
      simpa using Nat.le_of_not_lt hi
    have h2 : cells.getD i [] = [] := by
      rw [List.getD_eq_default]
      exact Nat.le_of_not_lt hi
    unfold csrSlice
    rw [h1, h2, List.take_zero]

/-! ## 2D face reconstruction (`make_index_maps`, `dim_ == 2` branch)

Source loop, per cell `c` and per position `i < count`:

    int n0 = cellToNodeList_[offset+i];
    int n1 = cellToNodeList_[offset+((i+1)%count)];
    int p0 = std::min(n0, n1);
    int p1 = std::max(n0, n1);
    auto npair = std::make_pair(p0, p1);
    auto it = nodeToFaceTmp.find(npair);
    int face;
    if (it == nodeToFaceTmp.end()) {
      face = facecount;
      nodeToFaceTmp.insert(std::make_pair(npair, face));
      faceToNodeList_.emplace_back(p0);
      faceToNodeList_.emplace_back(p1);
      ++facecount;
    } else { face = it->second; }
    cellToFaceList_.emplace_back(face);
    cellToFaceDirs_.push_back(n0 == p0);

and after each cell: `if (c == numOwnedCells_ - 1) numOwnedFaces_ = facecount;`.
-/

/-- Canonical unordered key of a directed edge: `(min, max)`. -/
def canonKey (e : ℕ × ℕ) : ℕ × ℕ := (min e.1 e.2, max e.1 e.2)

/-- Mutable state of the 2D face-reconstruction loop. -/
structure Face2D where
  nodeToFaceTmp : List ((ℕ × ℕ) × ℕ)
  facecount : ℕ
  faceToNodeList : List ℕ
  cellToFaceList : List ℕ
  cellToFaceDirs : List Bool
  deriving DecidableEq, Repr

def emptyFace2D : Face2D := ⟨[], 0, [], [], []⟩

/-- One iteration of the inner loop (one directed edge `e = (n0, n1)`).
In the source `npair = (p0, p1) = (min(n0,n1), max(n0,n1))`, which is
`canonKey e`; `(canonKey e).1` is `p0` and `(canonKey e).2` is `p1`. -/
def processEdge (s : Face2D) (e : ℕ × ℕ) : Face2D :=
  match mapFind (canonKey e) s.nodeToFaceTmp with
  | none =>
      { nodeToFaceTmp := s.nodeToFaceTmp ++ [(canonKey e, s.facecount)]
        facecount := s.facecount + 1
        faceToNodeList := s.faceToNodeList ++ [(canonKey e).1, (canonKey e).2]
        cellToFaceList := s.cellToFaceList ++ [s.facecount]
        cellToFaceDirs := s.cellToFaceDirs ++ [decide (e.1 = (canonKey e).1)] }
  | some f =>
      { s with
        cellToFaceList := s.cellToFaceList ++ [f]
        cellToFaceDirs := s.cellToFaceDirs ++ [decide (e.1 = (canonKey e).1)] }

def processEdges (s : Face2D) (es : List (ℕ × ℕ)) : Face2D :=
  es.foldl processEdge s

/-- The directed edges of one cell's polygon boundary:
`(nodes[i], nodes[(i+1) % count])` for `i < count`. -/
def cellEdges (l : List ℕ) : List (ℕ × ℕ) := l.zip (l.rotate 1)

/-- The full directed-edge stream of a 2D mesh, cells in index order. -/
def meshEdges (cells : List (List ℕ)) : List (ℕ × ℕ) :=
  (cells.map cellEdges).flatten

/-- The canonical keys of an edge stream in order of first discovery;
face index `f` of the reconstruction is the `f`-th entry. -/
def streamKeys (es : List (ℕ × ℕ)) : List (ℕ × ℕ) :=
  fsAux [] (es.map canonKey)

theorem processEdges_append (s : Face2D) (es : List (ℕ × ℕ)) (e : ℕ × ℕ) :
    processEdges s (es ++ [e]) = processEdge (processEdges s es) e := by
  simp [processEdges, List.foldl_append]

theorem streamKeys_append (es : List (ℕ × ℕ)) (e : ℕ × ℕ) :
    streamKeys (es ++ [e]) =
      if canonKey e ∈ streamKeys es then streamKeys es
      else streamKeys es ++ [canonKey e] := by
  simp only [streamKeys, List.map_append, List.map_cons, List.map_nil,
    fsAux_append]
  by_cases h : canonKey e ∈ fsAux [] (es.map canonKey)
  · simp [fsAux, h]
  · simp [fsAux, h]

theorem mem_streamKeys {k : ℕ × ℕ} (es : List (ℕ × ℕ)) :
    k ∈ streamKeys es ↔ k ∈ es.map canonKey := by
  rw [streamKeys, mem_fsAux]
  simp

theorem nodup_streamKeys (es : List (ℕ × ℕ)) : (streamKeys es).Nodup :=
  nodup_fsAux _ _ List.nodup_nil

/-- Complete characterization of the face-reconstruction fold over an
arbitrary edge stream, starting from the clean state. -/
theorem processEdges_char (es : List (ℕ × ℕ)) :
    (processEdges emptyFace2D es).nodeToFaceTmp = keyAssoc (streamKeys es) 0 ∧
    (processEdges emptyFace2D es).facecount = (streamKeys es).length ∧
    (processEdges emptyFace2D es).faceToNodeList =
      ((streamKeys es).map (fun k => [k.1, k.2])).flatten ∧
    (processEdges emptyFace2D es).cellToFaceList =
      es.map (fun e => idxOf (canonKey e) (streamKeys es)) ∧
    (processEdges emptyFace2D es).cellToFaceDirs =
      es.map (fun e => decide (e.1 = min e.1 e.2)) := by
  induction es using List.reverseRecOn with
  | nil => exact ⟨rfl, rfl, rfl, rfl, rfl⟩
  | append_singleton es e ih =>
    obtain ⟨ih1, ih2, ih3, ih4, ih5⟩ := ih
    have hmemks : ∀ e' ∈ es, canonKey e' ∈ streamKeys es := fun e' he' =>
      (mem_streamKeys es).mpr (List.mem_map_of_mem canonKey he')
    rw [processEdges_append]
    by_cases hk : canonKey e ∈ streamKeys es
    · -- existing face: map lookup succeeds
      have hfind : mapFind (canonKey e) (processEdges emptyFace2D es).nodeToFaceTmp =
          some (idxOf (canonKey e) (streamKeys es)) := by
        rw [ih1, mapFind_keyAssoc, if_pos hk, Nat.zero_add]
      have hkeys : streamKeys (es ++ [e]) = streamKeys es := by
        rw [streamKeys_append, if_pos hk]
      refine ⟨?_, ?_, ?_, ?_, ?_⟩ <;>
        simp only [processEdge, hfind, hkeys, List.map_append,
          List.map_cons, List.map_nil]
      · exact ih1
      · exact ih2
      · exact ih3
      · rw [ih4]
      · rw [ih5]
        simp [canonKey]
    · -- new face: map lookup fails, new key appended
      have hfind : mapFind (canonKey e) (processEdges emptyFace2D es).nodeToFaceTmp =
          none := by
        rw [ih1, mapFind_keyAssoc, if_neg hk]
      have hkeys : streamKeys (es ++ [e]) = streamKeys es ++ [canonKey e] := by
        rw [streamKeys_append, if_neg hk]
      have hidx_stable : ∀ e' ∈ es,
          idxOf (canonKey e') (streamKeys (es ++ [e])) =
          idxOf (canonKey e') (streamKeys es) := fun e' he' => by
        rw [hkeys, idxOf_append_of_mem (hmemks e' he')]
      have hidx_new : idxOf (canonKey e) (streamKeys (es ++ [e])) =
          (streamKeys es).length := by
        rw [hkeys, idxOf_append_of_not_mem hk]
        simp [idxOf]
      refine ⟨?_, ?_, ?_, ?_, ?_⟩ <;>
        simp only [processEdge, hfind]
      · rw [ih1, ih2, hkeys, keyAssoc_append, Nat.zero_add]
      · rw [ih2, hkeys, List.length_append, List.length_singleton]
      · rw [ih3, hkeys]
        simp
      · rw [ih2, List.map_append, List.map_singleton, ih4]
        congr 1
        · exact List.map_congr_left fun e' he' => (hidx_stable e' he').symm
        · rw [hidx_new]
      · rw [ih5, List.map_append, List.map_singleton]
        simp [canonKey]

/-- Per-cell iteration of the 2D branch of `make_index_maps` at the level
of per-cell node lists, carrying the cell index `c`, the running face
state, and the `numOwnedFaces_` member.  The member is overwritten after
cell `c` when `c == numOwnedCells_ - 1`; for `numOwnedCells_ = 0` the C++
comparison promotes `-1` to a huge unsigned value and never fires, which
`c + 1 = numOwnedCells` models for every `c`. -/
def goCells (numOwnedCells : ℕ) : List (List ℕ) → ℕ → Face2D → ℕ → Face2D × ℕ
  | [], _, s, owned => (s, owned)
  | l :: rest, c, s, owned =>
      let s' := processEdges s (cellEdges l)
      goCells numOwnedCells rest (c + 1) s'
        (if c + 1 = numOwnedCells then s'.facecount else owned)

/-- The same iteration at the level of the stored arrays: cell `c`'s node
list is read as `cellToNodeList_[offset .. offset+count)` with
`offset = cellNodeOffsets_[c]` and `count = cellNodeCounts_[c]`, exactly
as the source loop does. -/
def mim2dGo (flat offsets : List ℕ) (numOwnedCells : ℕ) :
    List ℕ → ℕ → Face2D → ℕ → Face2D × ℕ
  | [], _, s, owned => (s, owned)
  | cnt :: rest, c, s, owned =>
      let nodes := (flat.drop (offsets.getD c 0)).take cnt
      let s' := processEdges s (cellEdges nodes)
      mim2dGo flat offsets numOwnedCells rest (c + 1) s'
        (if c + 1 = numOwnedCells then s'.facecount else owned)

/-- The `dim_ == 2` branch of `make_index_maps`: recompute
`cellNodeOffsets_` from `cellNodeCounts_`, clear the face arrays, and run
the face-reconstruction loop over all cells.  Returns the new face arrays
and the updated `numOwnedFaces_` (whose previous, possibly uninitialized,
value is `numOwnedFaces0`). -/
def make_index_maps_2d (cellNodeCounts cellToNodeList : List ℕ)
    (numOwnedCells numOwnedFaces0 : ℕ) : Face2D × ℕ :=
  mim2dGo cellToNodeList (compute_offsets cellNodeCounts) numOwnedCells
    cellNodeCounts 0 emptyFace2D numOwnedFaces0

theorem processEdges_append2 (s : Face2D) (es₁ es₂ : List (ℕ × ℕ)) :
    processEdges s (es₁ ++ es₂) = processEdges (processEdges s es₁) es₂ := by
  simp [processEdges, List.foldl_append]

/-- When the stored arrays are the CSR encoding of per-cell node lists,
the array-level loop coincides with the per-cell-list loop. -/
theorem mim2dGo_bridge (cells : List (List ℕ)) (nOC : ℕ) :
    ∀ n k s w, n = cells.length - k →
      mim2dGo cells.flatten (compute_offsets (cells.map List.length)) nOC
        ((cells.map List.length).drop k) k s w =
      goCells nOC (cells.drop k) k s w := by
  intro n
  induction n with
  | zero =>
    intro k s w hn
    have hk : cells.length ≤ k := by omega
    rw [List.drop_eq_nil_of_le (by simpa using hk),
      List.drop_eq_nil_of_le hk]
    rfl
  | succ m ih =>
    intro k s w hn
    have hk : k < cells.length := by omega
    have hkm : k < (cells.map List.length).length := by simpa using hk
    rw [List.drop_eq_getElem_cons hk, List.drop_eq_getElem_cons hkm]
    have hslice :
        (cells.flatten.drop ((compute_offsets (cells.map List.length)).getD k 0)).take
          ((cells.map List.length)[k]) = cells[k] := by
      have := csrSlice_flatten cells k
      rw [csrSlice, List.getD_eq_getElem _ _ hkm,
        List.getD_eq_getElem _ _ hk] at this
      exact this
    simp only [mim2dGo, goCells, hslice]
    exact ih (k + 1) _ _ (by omega)

theorem make_index_maps_2d_eq (cells : List (List ℕ)) (nOC w0 : ℕ) :
    make_index_maps_2d (cells.map List.length) cells.flatten nOC w0 =
      goCells nOC cells 0 emptyFace2D w0 := by
  have := mim2dGo_bridge cells nOC cells.length 0 emptyFace2D w0 (by omega)
  simpa [make_index_maps_2d] using this

/-- The face state produced by the per-cell loop is the fold over the
concatenated edge stream. -/
theorem goCells_fst (nOC : ℕ) :
    ∀ (cells : List (List ℕ)) k s w,
      (goCells nOC cells k s w).1 = processEdges s (meshEdges cells) := by
  intro cells
  induction cells with
  | nil => intro k s w; simp [goCells, meshEdges, processEdges]
  | cons l rest ih =>
    intro k s w
    have hme : meshEdges (l :: rest) = cellEdges l ++ meshEdges rest := by
      simp [meshEdges]
    rw [goCells, ih, hme, processEdges_append2]

theorem facecount_mono_edge (s : Face2D) (e : ℕ × ℕ) :
    s.facecount ≤ (processEdge s e).facecount := by
  unfold processEdge
  cases h : mapFind (canonKey e) s.nodeToFaceTmp <;> simp

theorem facecount_mono (es : List (ℕ × ℕ)) :
    ∀ s : Face2D, s.facecount ≤ (processEdges s es).facecount := by
  induction es with
  | nil => intro s; exact Nat.le_refl _
  | cons e es ih =>
    intro s
    calc s.facecount ≤ (processEdge s e).facecount := facecount_mono_edge s e
      _ ≤ (processEdges (processEdge s e) es).facecount := ih _
      _ = (processEdges s (e :: es)).facecount := rfl

/-- Once the cell index has passed `numOwnedCells - 1`, the
`numOwnedFaces_` member is never touched again. -/
theorem goCells_owned_of_ge (nOC : ℕ) :
    ∀ (cells : List (List ℕ)) k s w, nOC ≤ k →
      (goCells nOC cells k s w).2 = w := by
  intro cells
  induction cells with
  | nil => intro k s w _; rfl
  | cons l rest ih =>
    intro k s w hk
    rw [goCells, if_neg (by omega)]
    exact ih (k + 1) _ _ (by omega)

/-- When the owned-cell range is nonempty and within the cell list, the
final `numOwnedFaces_` is the face count reached right after processing
cell `numOwnedCells - 1`. -/
theorem goCells_owned_eq (nOC : ℕ) :
    ∀ (cells : List (List ℕ)) k s w, k < nOC → nOC ≤ k + cells.length →
      (goCells nOC cells k s w).2 =
        (processEdges s (meshEdges (cells.take (nOC - k)))).facecount := by
  intro cells
  induction cells with
  | nil =>
    intro k s w h1 h2
    exact absurd h1 (by simp only [List.length_nil, Nat.add_zero] at h2; omega)
  | cons l rest ih =>
    intro k s w h1 h2
    by_cases hfire : k + 1 = nOC
    · rw [goCells, if_pos hfire]
      rw [goCells_owned_of_ge nOC rest (k + 1) _ _ (by omega)]
      have htake : (l :: rest).take (nOC - k) = [l] := by
        have : nOC - k = 1 := by omega
        rw [this]
        rfl
      rw [htake]
      simp [meshEdges]
    · rw [goCells, if_neg hfire]
      rw [ih (k + 1) _ w (by omega)
        (by simp only [List.length_cons] at h2; omega)]
      have htake : (l :: rest).take (nOC - k) = l :: rest.take (nOC - (k + 1)) := by
        have h3 : nOC - k = (nOC - (k + 1)) + 1 := by omega
        rw [h3, List.take_succ_cons]
      rw [htake]
      have hme : meshEdges (l :: rest.take (nOC - (k + 1))) =
          cellEdges l ++ meshEdges (rest.take (nOC - (k + 1))) := by
        simp [meshEdges]
      rw [hme, processEdges_append2]

/-! ## 3D cell-to-node derivation (`make_index_maps`, `dim_ == 3` branch)

    for (unsigned int c=0; c<cellFaceCounts_.size(); ++c) {
      std::vector<int> cellfaces, dummy;
      cell_get_faces_and_dirs(c, &cellfaces, &dummy);
      std::set<int> cellnodes;
      for (auto const& f : cellfaces) {
        std::vector<int> facenodes;
        face_get_nodes(f, &facenodes);
        cellnodes.insert(facenodes.begin(), facenodes.end());
      }
      cellNodeCounts_.emplace_back(cellnodes.size());
      cellToNodeList_.insert(cellToNodeList_.end(),
                             cellnodes.begin(), cellnodes.end());
    }
-/

/-- `std::set::insert(range)`: insert every element of `l` in order. -/
def insertAll (acc : List ℕ) (l : List ℕ) : List ℕ :=
  l.foldl (fun a n => setInsert n a) acc

/-- The `std::set<int> cellnodes` accumulated over one cell's face list. -/
def cellNodes3D (faceNodeCounts faceToNodeList : List ℕ)
    (cellfaces : List ℕ) : List ℕ :=
  cellfaces.foldl
    (fun acc f => insertAll acc (csrSlice faceNodeCounts faceToNodeList f)) []

/-- The 3D derivation of `cellNodeCounts_` and `cellToNodeList_` from the
cell-to-face and face-to-node arrays (cell `c`'s face list is the CSR
slice of `cellToFaceList_`, and each face's node list the CSR slice of
`faceToNodeList_`, exactly as `cell_get_faces_and_dirs`/`face_get_nodes`
read them). -/
def make_index_maps_3d (cellFaceCounts cellToFaceList
    faceNodeCounts faceToNodeList : List ℕ) : List ℕ × List ℕ :=
  let perCell := (List.range cellFaceCounts.length).map fun c =>
    cellNodes3D faceNodeCounts faceToNodeList
      (csrSlice cellFaceCounts cellToFaceList c)
  (perCell.map List.length, perCell.flatten)

theorem mem_insertAll (x : ℕ) (l acc : List ℕ) :
    x ∈ insertAll acc l ↔ x ∈ acc ∨ x ∈ l := by
  induction l generalizing acc with
  | nil => simp [insertAll]
  | cons n ns ih =>
    show x ∈ insertAll (setInsert n acc) ns ↔ _
    rw [ih, mem_setInsert]
    simp only [List.mem_cons]
    tauto

theorem sorted_insertAll (l acc : List ℕ) (h : acc.Pairwise (· < ·)) :
    (insertAll acc l).Pairwise (· < ·) := by
  induction l generalizing acc with
  | nil => exact h
  | cons n ns ih => exact ih _ (sorted_setInsert n acc h)

theorem mem_cellNodes3D (fnc ftn : List ℕ) (cellfaces : List ℕ) (x : ℕ) :
    x ∈ cellNodes3D fnc ftn cellfaces ↔
      ∃ f ∈ cellfaces, x ∈ csrSlice fnc ftn f := by
  suffices h : ∀ acc, x ∈ cellfaces.foldl
      (fun acc f => insertAll acc (csrSlice fnc ftn f)) acc ↔
      x ∈ acc ∨ ∃ f ∈ cellfaces, x ∈ csrSlice fnc ftn f by
    simpa using h []
  induction cellfaces with
  | nil => intro acc; simp
  | cons f fs ih =>
    intro acc
    rw [List.foldl_cons, ih, mem_insertAll]
    constructor
    · rintro ((h | h) | ⟨g, hg, hx⟩)
      · exact Or.inl h
      · exact Or.inr ⟨f, List.mem_cons_self f fs, h⟩
      · exact Or.inr ⟨g, List.mem_cons_of_mem f hg, hx⟩
    · rintro (h | ⟨g, hg, hx⟩)
      · exact Or.inl (Or.inl h)
      · rcases List.mem_cons.mp hg with rfl | hg'
        · exact Or.inl (Or.inr hx)
        · exact Or.inr ⟨g, hg', hx⟩

theorem sorted_cellNodes3D (fnc ftn : List ℕ) (cellfaces : List ℕ) :
    (cellNodes3D fnc ftn cellfaces).Pairwise (· < ·) := by
  suffices h : ∀ acc, acc.Pairwise (· < ·) → (cellfaces.foldl
      (fun acc f => insertAll acc (csrSlice fnc ftn f)) acc).Pairwise (· < ·) from
    h [] (List.Pairwise.nil)
  induction cellfaces with
  | nil => intro acc hacc; exact hacc
  | cons f fs ih =>
    intro acc hacc
    exact ih _ (sorted_insertAll _ _ hacc)

/-! ## Node-to-cell inversion (`make_index_maps`, final phase)

    int numNodes = numOwnedNodes_;
    std::vector<std::set<int>> nodeToCellTmp(numNodes);
    for (unsigned int c=0; c<cellNodeCounts_.size(); ++c) {
      int offset = cellNodeOffsets_[c];
      int count = cellNodeCounts_[c];
      for (unsigned int i=0; i<count; ++i) {
        int n = cellToNodeList_[offset+i];
        nodeToCellTmp[n].insert(c);
      }
    }

The write `nodeToCellTmp[n]` is in bounds only for `n < numOwnedNodes_`;
out-of-range behaviour is undefined in C++ and is modelled by `none`. -/

/-- `nodeToCellTmp[n].insert(c)` with an explicit bounds check. -/
def n2cInsert (tmp : List (List ℕ)) (n c : ℕ) : Option (List (List ℕ)) :=
  if n < tmp.length then some (tmp.set n (setInsert c (tmp.getD n []))) else none

/-- Inner loop over one cell's node list. -/
def n2cCell (tmp : List (List ℕ)) (c : ℕ) : List ℕ → Option (List (List ℕ))
  | [] => some tmp
  | n :: rest =>
      match n2cInsert tmp n c with
      | none => none
      | some tmp' => n2cCell tmp' c rest

/-- Outer loop over cells, at the level of per-cell node lists. -/
def n2cCells : List (List ℕ) → ℕ → List (List ℕ) → Option (List (List ℕ))
  | [], _, tmp => some tmp
  | l :: rest, c, tmp =>
      match n2cCell tmp c l with
      | none => none
      | some tmp' => n2cCells rest (c + 1) tmp'

/-- Outer loop over cells at the level of the stored arrays (cell `c`'s
node list is the CSR slice of `cellToNodeList_`). -/
def n2cGo (flat offsets : List ℕ) : List ℕ → ℕ → List (List ℕ) →
    Option (List (List ℕ))
  | [], _, tmp => some tmp
  | cnt :: rest, c, tmp =>
      match n2cCell tmp c ((flat.drop (offsets.getD c 0)).take cnt) with
      | none => none
      | some tmp' => n2cGo flat offsets rest (c + 1) tmp'

/-- The node-to-cell phase of `make_index_maps`: build the temporary
per-node sets (sized `numOwnedNodes_`). -/
def node_to_cell_phase (numOwnedNodes : ℕ)
    (cellNodeCounts cellToNodeList : List ℕ) : Option (List (List ℕ)) :=
  n2cGo cellToNodeList (compute_offsets cellNodeCounts) cellNodeCounts 0
    (List.replicate numOwnedNodes [])

theorem n2cGo_bridge (cells : List (List ℕ)) :
    ∀ n k tmp, n = cells.length - k →
      n2cGo cells.flatten (compute_offsets (cells.map List.length))
        ((cells.map List.length).drop k) k tmp =
      n2cCells (cells.drop k) k tmp := by
  intro n
  induction n with
  | zero =>
    intro k tmp hn
    have hk : cells.length ≤ k := by omega
    rw [List.drop_eq_nil_of_le (by simpa using hk),
      List.drop_eq_nil_of_le hk]
    rfl
  | succ m ih =>
    intro k tmp hn
    have hk : k < cells.length := by omega
    have hkm : k < (cells.map List.length).length := by simpa using hk
    rw [List.drop_eq_getElem_cons hk, List.drop_eq_getElem_cons hkm]
    have hslice :
        (cells.flatten.drop ((compute_offsets (cells.map List.length)).getD k 0)).take
          ((cells.map List.length)[k]) = cells[k] := by
      have := csrSlice_flatten cells k
      rw [csrSlice, List.getD_eq_getElem _ _ hkm,
        List.getD_eq_getElem _ _ hk] at this
      exact this
    simp only [n2cGo, n2cCells, hslice]
    cases n2cCell tmp k cells[k] with
    | none => rfl
    | some tmp' => exact ih (k + 1) _ (by omega)

theorem setInsert_of_mem {c : ℕ} {s : List ℕ} (hs : s.Pairwise (· < ·))
    (hc : c ∈ s) : setInsert c s = s := by
  induction s with
  | nil => cases hc
  | cons y ys ih =>
    rcases List.mem_cons.mp hc with rfl | hc'
    · simp [setInsert]
    · have hy : y < c := (List.pairwise_cons.mp hs).1 c hc'
      have h1 : ¬ c < y := by omega
      have h2 : ¬ c = y := by omega
      simp only [setInsert, if_neg h1, if_neg h2,
        ih (List.pairwise_cons.mp hs).2 hc']

/-- One cell's inner loop: succeeds iff every node index is in bounds;
on success the length is preserved and each in-bounds entry gains `c`
exactly at the node's positions in the cell's node list. -/
theorem n2cCell_spec (c : ℕ) :
    ∀ (nodes : List ℕ) (tmp : List (List ℕ)),
      (∀ n ∈ nodes, n < tmp.length) →
      ∃ tmp', n2cCell tmp c nodes = some tmp' ∧
        tmp'.length = tmp.length ∧
        ∀ n, n < tmp.length →
          ((∀ x, x ∈ tmp'.getD n [] ↔ (x = c ∧ n ∈ nodes) ∨ x ∈ tmp.getD n []) ∧
           ((tmp.getD n []).Pairwise (· < ·) → (tmp'.getD n []).Pairwise (· < ·))) := by
  intro nodes
  induction nodes with
  | nil =>
    intro tmp _
    exact ⟨tmp, rfl, rfl, fun n _ => ⟨fun x => by simp, fun h => h⟩⟩
  | cons m rest ih =>
    intro tmp hb
    have hm : m < tmp.length := hb m (List.mem_cons_self m rest)
    set tmp₁ := tmp.set m (setInsert c (tmp.getD m [])) with htmp₁
    have hlen₁ : tmp₁.length = tmp.length := by simp [htmp₁]
    have hget₁ : ∀ n, n < tmp.length →
        tmp₁.getD n [] = if n = m then setInsert c (tmp.getD m []) else tmp.getD n [] := by
      intro n hn
      by_cases hnm : n = m
      · subst hnm
        rw [if_pos rfl, htmp₁, List.getD_eq_getElem _ _ (by simpa using hn),
          List.getElem_set_self]
      · rw [if_neg hnm, htmp₁]
        by_cases hn' : n < tmp.length
        · rw [List.getD_eq_getElem _ _ (by simpa using hn'),
            List.getD_eq_getElem _ _ hn', List.getElem_set_ne (fun h => hnm h.symm)]
        · omega
    obtain ⟨tmp', h1, h2, h3⟩ := ih tmp₁ (fun n hn => by
      rw [hlen₁]; exact hb n (List.mem_cons_of_mem m hn))
    refine ⟨tmp', ?_, by rw [h2, hlen₁], ?_⟩
    · show n2cCell tmp c (m :: rest) = some tmp'
      rw [n2cCell, n2cInsert, if_pos hm]
      exact h1
    · intro n hn
      have hn₁ : n < tmp₁.length := by rw [hlen₁]; exact hn
      obtain ⟨h3a, h3b⟩ := h3 n hn₁
      constructor
      · intro x
        rw [h3a x, hget₁ n hn]
        by_cases hnm : n = m
        · subst hnm
          rw [if_pos rfl, mem_setInsert]
          simp only [List.mem_cons]
          tauto
        · rw [if_neg hnm]
          simp only [List.mem_cons]
          constructor
          · rintro (⟨rfl, hr⟩ | hx)
            · exact Or.inl ⟨rfl, Or.inr hr⟩
            · exact Or.inr hx
          · rintro (⟨rfl, (hr | hr)⟩ | hx)
            · exact absurd hr hnm
            · exact Or.inl ⟨rfl, hr⟩
            · exact Or.inr hx
      · intro hsort
        apply h3b
        rw [hget₁ n hn]
        by_cases hnm : n = m
        · subst hnm
          rw [if_pos rfl]
          exact sorted_setInsert c _ hsort
        · rwa [if_neg hnm]

/-- One cell's inner loop fails iff some node index is out of bounds. -/
theorem n2cCell_none (c : ℕ) :
    ∀ (nodes : List ℕ) (tmp : List (List ℕ)),
      (∃ n ∈ nodes, ¬ n < tmp.length) → n2cCell tmp c nodes = none := by
  intro nodes
  induction nodes with
  | nil => rintro tmp ⟨n, hn, _⟩; cases hn
  | cons m rest ih =>
    rintro tmp ⟨n, hn, hge⟩
    by_cases hm : m < tmp.length
    · have hn' : n ∈ rest := by
        rcases List.mem_cons.mp hn with rfl | h
        · exact absurd hm hge
        · exact h
      rw [n2cCell, n2cInsert, if_pos hm]
      exact ih _ ⟨n, hn', by simpa using hge⟩
    · rw [n2cCell, n2cInsert, if_neg hm]

/-- The outer loop over cells: succeeds iff every node referenced by any
cell is in bounds; on success, each per-node set is (still) sorted and
contains exactly the previously present cells plus the cells of the
processed range that reference the node. -/
theorem n2cCells_spec :
    ∀ (cells : List (List ℕ)) (c0 : ℕ) (tmp : List (List ℕ)),
      (∀ l ∈ cells, ∀ n ∈ l, n < tmp.length) →
      ∃ tmp', n2cCells cells c0 tmp = some tmp' ∧
        tmp'.length = tmp.length ∧
        ∀ n, n < tmp.length →
          ((∀ x, x ∈ tmp'.getD n [] ↔
              (∃ i, i < cells.length ∧ x = c0 + i ∧ n ∈ cells.getD i []) ∨
              x ∈ tmp.getD n []) ∧
           ((tmp.getD n []).Pairwise (· < ·) → (tmp'.getD n []).Pairwise (· < ·))) := by
  intro cells
  induction cells with
  | nil =>
    intro c0 tmp _
    exact ⟨tmp, rfl, rfl, fun n _ => ⟨fun x => by simp, fun h => h⟩⟩
  | cons l rest ih =>
    intro c0 tmp hb
    obtain ⟨tmp₁, h1, h2, h3⟩ := n2cCell_spec c0 l tmp
      (hb l (List.mem_cons_self l rest))
    obtain ⟨tmp', g1, g2, g3⟩ := ih (c0 + 1) tmp₁ (fun l' hl' n hn => by
      rw [h2]; exact hb l' (List.mem_cons_of_mem l hl') n hn)
    refine ⟨tmp', ?_, by rw [g2, h2], ?_⟩
    · show n2cCells (l :: rest) c0 tmp = some tmp'
      rw [n2cCells, h1]
      exact g1
    · intro n hn
      have hn₁ : n < tmp₁.length := by rw [h2]; exact hn
      obtain ⟨h3a, h3b⟩ := h3 n hn
      obtain ⟨g3a, g3b⟩ := g3 n hn₁
      constructor
      · intro x
        rw [g3a x, h3a x]
        constructor
        · rintro (⟨i, hi, rfl, hmem⟩ | ⟨rfl, hl⟩ | hx)
          · refine Or.inl ⟨i + 1, by simpa using hi, by omega, ?_⟩
            simpa using hmem
          · exact Or.inl ⟨0, by simp, by omega, by simpa using hl⟩
          · exact Or.inr hx
        · rintro (⟨i, hi, rfl, hmem⟩ | hx)
          · cases i with
            | zero =>
              exact Or.inr (Or.inl ⟨by omega, by simpa using hmem⟩)
            | succ j =>
              refine Or.inl ⟨j, by simpa using hi, by omega, by simpa using hmem⟩
          · exact Or.inr (Or.inr hx)
      · exact fun hs => g3b (h3b hs)

/-- The outer loop fails iff some referenced node index is out of bounds. -/
theorem n2cCells_none :
    ∀ (cells : List (List ℕ)) (c0 : ℕ) (tmp : List (List ℕ)),
      (∃ l ∈ cells, ∃ n ∈ l, ¬ n < tmp.length) →
      n2cCells cells c0 tmp = none := by
  intro cells
  induction cells with
  | nil => rintro c0 tmp ⟨l, hl, _⟩; cases hl
  | cons l rest ih =>
    rintro c0 tmp ⟨l', hl', n, hn, hge⟩
    by_cases hcell : ∀ m ∈ l, m < tmp.length
    · obtain ⟨tmp₁, h1, h2, _⟩ := n2cCell_spec c0 l tmp hcell
      rw [n2cCells, h1]
      have hl'' : l' ∈ rest := by
        rcases List.mem_cons.mp hl' with rfl | h
        · exact absurd (hcell n hn) hge
        · exact h
      exact ih (c0 + 1) tmp₁ ⟨l', hl'', n, hn, by rw [h2]; exact hge⟩
    · push_neg at hcell
      obtain ⟨m, hm, hmge⟩ := hcell
      rw [n2cCells, n2cCell_none c0 l tmp ⟨m, hm, by omega⟩]

/-! ## The `Flat_Mesh_Wrapper` class data and query surface -/

/-- The `Wonton::Entity_type` values used by the wrapper. -/
inductive Entity_type where
  | PARALLEL_OWNED
  | PARALLEL_GHOST
  | ALL
  deriving DecidableEq, Repr

export Entity_type (PARALLEL_OWNED PARALLEL_GHOST ALL)

/-- The member data of `Flat_Mesh_Wrapper<T>` (`T` is the coordinate
scalar type, `double` in the source; no claim inspects coordinate
values, so it stays an arbitrary type here). -/
structure FlatMeshW (T : Type) where
  dim : ℕ
  numOwnedCells : ℕ
  numOwnedFaces : ℕ
  numOwnedNodes : ℕ
  nodeCoords : List T
  cellToNodeList : List ℕ
  cellNodeCounts : List ℕ
  cellNodeOffsets : List ℕ
  cellToFaceList : List ℕ
  cellToFaceDirs : List Bool
  cellFaceCounts : List ℕ
  cellFaceOffsets : List ℕ
  faceToNodeList : List ℕ
  faceNodeCounts : List ℕ
  faceNodeOffsets : List ℕ
  nodeToCellList : List ℕ
  nodeCellCounts : List ℕ
  nodeCellOffsets : List ℕ
  cellGlobalIds : List ℤ
  faceGlobalIds : List ℤ
  nodeGlobalIds : List ℤ
  deriving DecidableEq, Repr

namespace FlatMeshW

variable {T : Type}

/-- `num_owned_cells()`. -/
def num_owned_cells (m : FlatMeshW T) : ℕ := m.numOwnedCells

/-- `num_owned_nodes()`. -/
def num_owned_nodes (m : FlatMeshW T) : ℕ := m.numOwnedNodes

/-- `num_owned_faces()`. -/
def num_owned_faces (m : FlatMeshW T) : ℕ := m.numOwnedFaces

/-- Total cell count, `num_owned_cells() + num_ghost_cells()`
(`num_ghost_cells()` returns `cellNodeCounts_.size() - numOwnedCells_`,
so the total is the array size). -/
def total_num_cells (m : FlatMeshW T) : ℕ := m.cellNodeCounts.length

/-- Total node count: `num_ghost_nodes()` returns
`nodeCoords_.size()/dim_ - numOwnedNodes_`, so the total is
`nodeCoords_.size() / dim_`. -/
def total_num_nodes (m : FlatMeshW T) : ℕ := m.nodeCoords.length / m.dim

/-- Total face count: `num_ghost_faces()` returns
`faceToNodeList_.size()/2 - numOwnedFaces_` in 2D and
`faceNodeCounts_.size() - numOwnedFaces_` in 3D. -/
def total_num_faces (m : FlatMeshW T) : ℕ :=
  if m.dim = 2 then m.faceToNodeList.length / 2 else m.faceNodeCounts.length

/-- `cell_get_type`: `PARALLEL_OWNED` iff `cellid < numOwnedCells_`. -/
def cell_get_type (m : FlatMeshW T) (cellid : ℕ) : Entity_type :=
  if cellid < m.numOwnedCells then PARALLEL_OWNED else PARALLEL_GHOST

/-- `node_get_type`: `PARALLEL_OWNED` iff `nodeid < numOwnedNodes_`. -/
def node_get_type (m : FlatMeshW T) (nodeid : ℕ) : Entity_type :=
  if nodeid < m.numOwnedNodes then PARALLEL_OWNED else PARALLEL_GHOST

/-- `cell_get_nodes`: slice `cellToNodeList_` at
`[cellNodeOffsets_[c], cellNodeOffsets_[c] + cellNodeCounts_[c])`. -/
def cell_get_nodes (m : FlatMeshW T) (cellid : ℕ) : List ℕ :=
  (m.cellToNodeList.drop (m.cellNodeOffsets.getD cellid 0)).take
    (m.cellNodeCounts.getD cellid 0)

/-- `cell_get_faces_and_dirs`: in 2D the slice bounds come from the
cell-node arrays, in 3D from the cell-face arrays; directions are stored
as `bool` (pushed to the caller as `+1`/`-1`, modelled as
`true`/`false`). -/
def cell_get_faces_and_dirs (m : FlatMeshW T) (cellid : ℕ) :
    List ℕ × List Bool :=
  if m.dim = 2 then
    ((m.cellToFaceList.drop (m.cellNodeOffsets.getD cellid 0)).take
       (m.cellNodeCounts.getD cellid 0),
     (m.cellToFaceDirs.drop (m.cellNodeOffsets.getD cellid 0)).take
       (m.cellNodeCounts.getD cellid 0))
  else
    ((m.cellToFaceList.drop (m.cellFaceOffsets.getD cellid 0)).take
       (m.cellFaceCounts.getD cellid 0),
     (m.cellToFaceDirs.drop (m.cellFaceOffsets.getD cellid 0)).take
       (m.cellFaceCounts.getD cellid 0))

/-- `face_get_nodes`: in 2D faces always have two nodes at offset
`2*faceid`; in 3D the slice bounds come from the face-node arrays. -/
def face_get_nodes (m : FlatMeshW T) (faceid : ℕ) : List ℕ :=
  if m.dim = 2 then (m.faceToNodeList.drop (2 * faceid)).take 2
  else (m.faceToNodeList.drop (m.faceNodeOffsets.getD faceid 0)).take
    (m.faceNodeCounts.getD faceid 0)

/-- `node_get_cells`: the CSR slice for the node, filtered by
`cell_get_type` unless `ptype == ALL`. -/
def node_get_cells (m : FlatMeshW T) (nodeid : ℕ) (ptype : Entity_type) :
    List ℕ :=
  if ptype = ALL then
    (m.nodeToCellList.drop (m.nodeCellOffsets.getD nodeid 0)).take
      (m.nodeCellCounts.getD nodeid 0)
  else
    ((m.nodeToCellList.drop (m.nodeCellOffsets.getD nodeid 0)).take
      (m.nodeCellCounts.getD nodeid 0)).filter
      (fun c => decide (cell_get_type m c = ptype))

/-- `set_num_owned_cells` (no validation in the source). -/
def set_num_owned_cells (m : FlatMeshW T) (n : ℕ) : FlatMeshW T :=
  { m with numOwnedCells := n }

/-- `set_num_owned_faces` (no validation in the source). -/
def set_num_owned_faces (m : FlatMeshW T) (n : ℕ) : FlatMeshW T :=
  { m with numOwnedFaces := n }

/-- `set_num_owned_nodes` (no validation in the source). -/
def set_num_owned_nodes (m : FlatMeshW T) (n : ℕ) : FlatMeshW T :=
  { m with numOwnedNodes := n }

end FlatMeshW

/-! ## `initialize` (2D input path) and `make_index_maps` -/

/-- The generic mesh interface consumed by `initialize` for a 2D source
mesh: counts, per-cell node lists, per-node coordinates, global ids. -/
structure MeshInput2D (T : Type) where
  numOwnedCells : ℕ
  numGhostCells : ℕ
  numOwnedNodes : ℕ
  numGhostNodes : ℕ
  cellNodes : ℕ → List ℕ
  coords : ℕ → T × T
  cellGID : ℕ → ℤ
  nodeGID : ℕ → ℤ

/-- `Flat_Mesh_Wrapper::initialize` for a 2D source mesh: copy counts,
global ids, per-cell node lists (concatenated, with counts), node
coordinates (flat, stride 2), and compute the cell-node offsets.  All
face and node-to-cell arrays start clear; `numOwnedFaces_` is not
assigned on the 2D path (it is an uninitialized member until
`make_index_maps` runs), its indeterminate initial value is the
parameter `numOwnedFaces0`. -/
def initialize2D {T : Type} (inp : MeshInput2D T) (numOwnedFaces0 : ℕ) :
    FlatMeshW T :=
  let numCells := inp.numOwnedCells + inp.numGhostCells
  let numNodes := inp.numOwnedNodes + inp.numGhostNodes
  let counts := (List.range numCells).map fun c => (inp.cellNodes c).length
  { dim := 2
    numOwnedCells := inp.numOwnedCells
    numOwnedFaces := numOwnedFaces0
    numOwnedNodes := inp.numOwnedNodes
    nodeCoords := ((List.range numNodes).map fun n =>
      [(inp.coords n).1, (inp.coords n).2]).flatten
    cellToNodeList := ((List.range numCells).map inp.cellNodes).flatten
    cellNodeCounts := counts
    cellNodeOffsets := compute_offsets counts
    cellToFaceList := []
    cellToFaceDirs := []
    cellFaceCounts := []
    cellFaceOffsets := []
    faceToNodeList := []
    faceNodeCounts := []
    faceNodeOffsets := []
    nodeToCellList := []
    nodeCellCounts := []
    nodeCellOffsets := []
    cellGlobalIds := (List.range numCells).map inp.cellGID
    faceGlobalIds := []
    nodeGlobalIds := (List.range numNodes).map inp.nodeGID }

/-- `Flat_Mesh_Wrapper::make_index_maps`: the 2D face reconstruction or
the 3D cell-to-node derivation (each recomputing its offsets first),
followed by the node-to-cell inversion.  The source performs no validity
checks and has no failure path except the undefined out-of-range write
`nodeToCellTmp[n]`, modelled by `none`. -/
def make_index_maps {T : Type} (m : FlatMeshW T) : Option (FlatMeshW T) :=
  let m1 :=
    if m.dim = 2 then
      let r := make_index_maps_2d m.cellNodeCounts m.cellToNodeList
        m.numOwnedCells m.numOwnedFaces
      { m with
        cellNodeOffsets := compute_offsets m.cellNodeCounts
        cellToFaceList := r.1.cellToFaceList
        cellToFaceDirs := r.1.cellToFaceDirs
        faceToNodeList := r.1.faceToNodeList
        numOwnedFaces := r.2 }
    else if m.dim = 3 then
      let r := make_index_maps_3d m.cellFaceCounts m.cellToFaceList
        m.faceNodeCounts m.faceToNodeList
      { m with
        faceNodeOffsets := compute_offsets m.faceNodeCounts
        cellFaceOffsets := compute_offsets m.cellFaceCounts
        cellNodeCounts := r.1
        cellToNodeList := r.2
        cellNodeOffsets := compute_offsets r.1 }
    else m
  match node_to_cell_phase m1.numOwnedNodes m1.cellNodeCounts m1.cellToNodeList with
  | none => none
  | some tmp => some
      { m1 with
        nodeCellCounts := tmp.map List.length
        nodeToCellList := tmp.flatten
        nodeCellOffsets := compute_offsets (tmp.map List.length) }

/-! ## Record-level characterization of `make_index_maps` on 2D meshes -/

theorem replicate_getD_nil (k n : ℕ) :
    (List.replicate k ([] : List ℕ)).getD n [] = [] := by
  by_cases h : n < k
  · rw [List.getD_eq_getElem _ _ (by simpa using h), List.getElem_replicate]
  · rw [List.getD_eq_default]
    simpa using Nat.le_of_not_lt h

/-- `node_to_cell_phase` on the CSR encoding of per-cell node lists. -/
theorem node_to_cell_phase_eq (nON : ℕ) (cells : List (List ℕ)) :
    node_to_cell_phase nON (cells.map List.length) cells.flatten =
      n2cCells cells 0 (List.replicate nON []) := by
  have := n2cGo_bridge cells cells.length 0 (List.replicate nON []) (by omega)
  simpa [node_to_cell_phase] using this

/-- Full success characterization of the node-to-cell phase. -/
theorem node_to_cell_phase_spec (nON : ℕ) (cells : List (List ℕ))
    (hb : ∀ l ∈ cells, ∀ n ∈ l, n < nON) :
    ∃ tmp, node_to_cell_phase nON (cells.map List.length) cells.flatten = some tmp ∧
      tmp.length = nON ∧
      ∀ n, n < nON →
        ((tmp.getD n []).Pairwise (· < ·) ∧
         ∀ c, c ∈ tmp.getD n [] ↔ c < cells.length ∧ n ∈ cells.getD c []) := by
  obtain ⟨tmp, h1, h2, h3⟩ := n2cCells_spec cells 0 (List.replicate nON [])
    (fun l hl n hn => by simpa using hb l hl n hn)
  refine ⟨tmp, ?_, by simpa using h2, ?_⟩
  · rw [node_to_cell_phase_eq]
    exact h1
  · intro n hn
    have hn' : n < (List.replicate nON ([] : List ℕ)).length := by simpa using hn
    obtain ⟨h3a, h3b⟩ := h3 n hn'
    constructor
    · exact h3b (by rw [replicate_getD_nil]; exact List.Pairwise.nil)
    · intro c
      rw [h3a c, replicate_getD_nil]
      constructor
      · rintro (⟨i, hi, rfl, hmem⟩ | hc)
        · exact ⟨by omega, by simpa using hmem⟩
        · cases hc
      · rintro ⟨hc, hmem⟩
        exact Or.inl ⟨c, hc, by omega, hmem⟩

/-- Failure characterization of the node-to-cell phase. -/
theorem node_to_cell_phase_none (nON : ℕ) (cells : List (List ℕ))
    (hb : ∃ l ∈ cells, ∃ n ∈ l, ¬ n < nON) :
    node_to_cell_phase nON (cells.map List.length) cells.flatten = none := by
  rw [node_to_cell_phase_eq]
  obtain ⟨l, hl, n, hn, hge⟩ := hb
  exact n2cCells_none cells 0 _ ⟨l, hl, n, hn, by simpa using hge⟩

/-- Master lemma: `make_index_maps` on a record whose cell-node arrays
are the CSR encoding of `cells`, with `dim_ == 2` and all referenced
nodes owned, succeeds and produces exactly the face-reconstruction fold
state, the owned-face bookkeeping value, and the node-to-cell arrays. -/
theorem make_index_maps_record_2d {T : Type} (m : FlatMeshW T)
    (cells : List (List ℕ)) (hdim : m.dim = 2)
    (hcounts : m.cellNodeCounts = cells.map List.length)
    (hflat : m.cellToNodeList = cells.flatten)
    (hb : ∀ l ∈ cells, ∀ n ∈ l, n < m.numOwnedNodes) :
    ∃ (m' : FlatMeshW T) (tmp : List (List ℕ)),
      make_index_maps m = some m' ∧
      m'.dim = m.dim ∧
      m'.numOwnedCells = m.numOwnedCells ∧
      m'.numOwnedNodes = m.numOwnedNodes ∧
      m'.cellNodeCounts = m.cellNodeCounts ∧
      m'.cellToNodeList = m.cellToNodeList ∧
      m'.cellNodeOffsets = compute_offsets (cells.map List.length) ∧
      m'.cellToFaceList = (processEdges emptyFace2D (meshEdges cells)).cellToFaceList ∧
      m'.cellToFaceDirs = (processEdges emptyFace2D (meshEdges cells)).cellToFaceDirs ∧
      m'.faceToNodeList = (processEdges emptyFace2D (meshEdges cells)).faceToNodeList ∧
      m'.numOwnedFaces = (goCells m.numOwnedCells cells 0 emptyFace2D m.numOwnedFaces).2 ∧
      m'.nodeCellCounts = tmp.map List.length ∧
      m'.nodeToCellList = tmp.flatten ∧
      m'.nodeCellOffsets = compute_offsets (tmp.map List.length) ∧
      tmp.length = m.numOwnedNodes ∧
      ∀ n, n < m.numOwnedNodes →
        ((tmp.getD n []).Pairwise (· < ·) ∧
         ∀ c, c ∈ tmp.getD n [] ↔ c < cells.length ∧ n ∈ cells.getD c []) := by
  obtain ⟨tmp, hp1, hp2, hp3⟩ :=
    node_to_cell_phase_spec m.numOwnedNodes cells hb
  have hmk : make_index_maps m = some
      { m with
        cellNodeOffsets := compute_offsets (cells.map List.length)
        cellToFaceList := (processEdges emptyFace2D (meshEdges cells)).cellToFaceList
        cellToFaceDirs := (processEdges emptyFace2D (meshEdges cells)).cellToFaceDirs
        faceToNodeList := (processEdges emptyFace2D (meshEdges cells)).faceToNodeList
        numOwnedFaces := (goCells m.numOwnedCells cells 0 emptyFace2D m.numOwnedFaces).2
        nodeCellCounts := tmp.map List.length
        nodeToCellList := tmp.flatten
        nodeCellOffsets := compute_offsets (tmp.map List.length) } := by
    unfold make_index_maps
    rw [if_pos hdim]
    simp only [hcounts, hflat, make_index_maps_2d_eq, goCells_fst]
    rw [hp1]
  exact ⟨_, tmp, hmk, rfl, rfl, rfl, rfl, rfl, rfl, rfl, rfl, rfl, rfl, rfl,
    rfl, rfl, hp2, hp3⟩

/-- Reading one block of a flattened map of blocks through the CSR slice
pattern, when the per-block lengths match the original lists. -/
theorem slice_blocks {α β : Type} (cells : List (List α)) (g : List α → List β)
    (hlen : ∀ l, (g l).length = l.length) (c : ℕ) :
    csrSlice (cells.map List.length) ((cells.map g).flatten) c =
      (cells.map g).getD c [] := by
  have h1 : (cells.map g).map List.length = cells.map List.length := by
    rw [List.map_map]
    exact List.map_congr_left fun l _ => hlen l
  rw [← h1, csrSlice_flatten]

theorem getD_map_lt {α β : Type} (l : List α) (g : α → β) {i : ℕ}
    (hi : i < l.length) (d : α) (d' : β) :
    (l.map g).getD i d' = g (l.getD i d) := by
  rw [List.getD_eq_getElem _ _ (by simpa using hi),
    List.getD_eq_getElem _ _ hi, List.getElem_map]

/-- Reading back face `f`'s two stored nodes from the flattened pair
list. -/
theorem flatten_pairs_slice (ks : List (ℕ × ℕ)) :
    ∀ f, f < ks.length →
      (((ks.map fun k => [k.1, k.2]).flatten.drop (2 * f)).take 2) =
        [(ks.getD f (0, 0)).1, (ks.getD f (0, 0)).2] := by
  induction ks with
  | nil => intro f hf; simp at hf
  | cons k rest ih =>
    intro f hf
    cases f with
    | zero => simp
    | succ j =>
      have hj : j < rest.length := by simpa using hf
      have h2 : 2 * (j + 1) = (([k.1, k.2] : List ℕ)).length + 2 * j := by
        simp only [List.length_cons, List.length_nil]
        omega
      simp only [List.map_cons, List.flatten_cons, List.getD_cons_succ, h2,
        List.drop_append]
      exact ih j hj

/-- The length of a cell's edge list equals the length of its node list. -/
theorem length_cellEdges (l : List ℕ) : (cellEdges l).length = l.length := by
  simp [cellEdges, List.length_zip, List.length_rotate]

/-- Per-block view of the reconstructed cell-to-face list. -/
theorem cellToFaceList_blocks (cells : List (List ℕ)) :
    (processEdges emptyFace2D (meshEdges cells)).cellToFaceList =
      (cells.map fun l => (cellEdges l).map
        (fun e => idxOf (canonKey e) (streamKeys (meshEdges cells)))).flatten := by
  obtain ⟨-, -, -, h4, -⟩ := processEdges_char (meshEdges cells)
  rw [h4, meshEdges, List.map_flatten, List.map_map]
  rfl

/-- Per-block view of the reconstructed direction flags. -/
theorem cellToFaceDirs_blocks (cells : List (List ℕ)) :
    (processEdges emptyFace2D (meshEdges cells)).cellToFaceDirs =
      (cells.map fun l => (cellEdges l).map
        (fun e => decide (e.1 = min e.1 e.2))).flatten := by
  obtain ⟨-, -, -, -, h5⟩ := processEdges_char (meshEdges cells)
  rw [h5, meshEdges, List.map_flatten, List.map_map]
  rfl

/-! ## Concrete example meshes used as witnesses -/

/-- Two 2D quads sharing the edge `{1, 2}` (spec scenario B): cell 0 is
`[0,1,2,3]`, cell 1 is `[1,4,5,2]`. -/
def exInp : MeshInput2D Unit where
  numOwnedCells := 2
  numGhostCells := 0
  numOwnedNodes := 6
  numGhostNodes := 0
  cellNodes := fun c => if c = 0 then [0, 1, 2, 3] else [1, 4, 5, 2]
  coords := fun _ => ((), ())
  cellGID := fun n => (n : ℤ)
  nodeGID := fun n => (n : ℤ)

def exCells : List (List ℕ) := [[0, 1, 2, 3], [1, 4, 5, 2]]

/-! ## Claim C2 — `compute_offsets` output shape -/

/-- C2, counterexample: the claim says the offsets array has length
`N + 1` and that an empty input yields `[0]`; the source resizes the
output to `N`, so the empty input yields `[]` (and a length-1 input
yields `[0]`, not a length-2 array). -/
theorem c2_counterexample :
    compute_offsets [] = ([] : List ℕ) ∧
    compute_offsets [] ≠ [0] ∧
    (compute_offsets [3]).length ≠ [3].length + 1 := by
  decide

/-- C2 (amended): `compute_offsets` produces an offsets array of length
`N` (not `N + 1`), with `offsets[0] = 0` when `N > 0` and
`offsets[i+1] - offsets[i] = counts[i]` for `i + 1 < N`; for an empty
input the offsets array is `[]`. -/
theorem c2_offsets (counts : List ℕ) :
    (compute_offsets counts).length = counts.length ∧
    (counts = [] → compute_offsets counts = []) ∧
    (0 < counts.length → (compute_offsets counts).getD 0 0 = 0) ∧
    ∀ i, i + 1 < counts.length →
      (compute_offsets counts).getD (i + 1) 0 =
        (compute_offsets counts).getD i 0 + counts.getD i 0 := by
  refine ⟨length_compute_offsets counts, ?_, ?_, ?_⟩
  · rintro rfl; rfl
  · intro h
    rw [compute_offsets_getD counts 0 h]
    rfl
  · intro i hi
    rw [compute_offsets_getD counts (i + 1) hi,
      compute_offsets_getD counts i (by omega),
      List.sum_take_succ counts i (by omega),
      List.getD_eq_getElem _ _ (by omega)]

theorem c2_offsets_witness :
    (compute_offsets [2, 3, 4]).getD 2 0 =
      (compute_offsets [2, 3, 4]).getD 1 0 + [2, 3, 4].getD 1 0 :=
  (c2_offsets [2, 3, 4]).2.2.2 1 (by decide)

/-! ## Claim C3 — CSR round-trip through `cell_get_nodes` -/

/-- C3: encoding per-entity lists (values = concatenation, offsets =
`compute_offsets` of the counts) and decoding entity `i` by the
offset/count slice of `cell_get_nodes` returns exactly the original
ordered list, for every entity `i`. -/
theorem c3_roundtrip {T : Type} (m : FlatMeshW T) (cells : List (List ℕ))
    (hcounts : m.cellNodeCounts = cells.map List.length)
    (hflat : m.cellToNodeList = cells.flatten)
    (hoff : m.cellNodeOffsets = compute_offsets (cells.map List.length))
    (i : ℕ) (_hi : i < cells.length) :
    FlatMeshW.cell_get_nodes m i = cells.getD i [] := by
  unfold FlatMeshW.cell_get_nodes
  rw [hcounts, hflat, hoff]
  exact csrSlice_flatten cells i

theorem c3_roundtrip_witness :
    FlatMeshW.cell_get_nodes (initialize2D exInp 0) 1 = [1, 4, 5, 2] :=
  c3_roundtrip (initialize2D exInp 0) exCells (by decide) (by decide)
    (by decide) 1 (by decide)

/-! ## Claim C10 — bounds of the `nodeToCellTmp` indexing -/

/-- C10: the temporary per-node array built by the node-to-cell phase is
sized `numOwnedNodes_` but indexed by every node index appearing in any
cell's node list; the construction stays in bounds (returns a result)
exactly when every referenced node index is `< numOwnedNodes_`. -/
theorem c10_node_to_cell_bounds (nON : ℕ) (cells : List (List ℕ)) :
    (node_to_cell_phase nON (cells.map List.length) cells.flatten).isSome = true ↔
      ∀ l ∈ cells, ∀ n ∈ l, n < nON := by
  constructor
  · intro h
    by_contra hneg
    push_neg at hneg
    obtain ⟨l, hl, n, hn, hge⟩ := hneg
    rw [node_to_cell_phase_none nON cells ⟨l, hl, n, hn, by omega⟩] at h
    cases h
  · intro hb
    obtain ⟨tmp, h1, -⟩ := node_to_cell_phase_spec nON cells hb
    rw [h1]
    rfl

theorem c10_witness :
    (node_to_cell_phase 6 (exCells.map List.length) exCells.flatten).isSome = true :=
  (c10_node_to_cell_bounds 6 exCells).mpr (by decide)

/-! ## Claim C9 — ownership thresholds and classification -/

/-- C9, counterexample: `set_num_owned_cells` performs no validation, so
after setting the owned-cell count of a 2-cell mesh to 5 the invariant
`ownedCount ≤ totalCount` is violated (the claim asserts it holds after
any use of the owned-count setters). -/
theorem c9_counterexample :
    FlatMeshW.num_owned_cells
        (FlatMeshW.set_num_owned_cells (initialize2D exInp 0) 5) = 5 ∧
    FlatMeshW.total_num_cells
        (FlatMeshW.set_num_owned_cells (initialize2D exInp 0) 5) = 2 ∧
    ¬ (FlatMeshW.num_owned_cells
        (FlatMeshW.set_num_owned_cells (initialize2D exInp 0) 5) ≤
       FlatMeshW.total_num_cells
        (FlatMeshW.set_num_owned_cells (initialize2D exInp 0) 5)) := by
  decide

/-- C9 (amended): after construction, `ownedCount ≤ totalCount` holds for
cells and nodes, and for faces after the 2D reconstruction provided the
owned cells are a nonempty prefix of the cell range; the owned-count
setters perform no validation (see the counterexample); and an entity is
classified `PARALLEL_OWNED` by `cell_get_type`/`node_get_type` exactly
when its index is below the owned count. -/
theorem c9_ownership {T : Type} (inp : MeshInput2D T) (w0 : ℕ)
    (cells : List (List ℕ)) (nOC w0' : ℕ) (m : FlatMeshW T) (i : ℕ) :
    (FlatMeshW.num_owned_cells (initialize2D inp w0) ≤
      FlatMeshW.total_num_cells (initialize2D inp w0)) ∧
    (FlatMeshW.num_owned_nodes (initialize2D inp w0) ≤
      FlatMeshW.total_num_nodes (initialize2D inp w0)) ∧
    (1 ≤ nOC → nOC ≤ cells.length →
      (make_index_maps_2d (cells.map List.length) cells.flatten nOC w0').2 ≤
        (make_index_maps_2d (cells.map List.length) cells.flatten nOC w0').1.faceToNodeList.length / 2) ∧
    (FlatMeshW.cell_get_type m i = PARALLEL_OWNED ↔ i < m.numOwnedCells) ∧
    (FlatMeshW.node_get_type m i = PARALLEL_OWNED ↔ i < m.numOwnedNodes) := by
  refine ⟨?_, ?_, ?_, ?_, ?_⟩
  · show inp.numOwnedCells ≤ ((List.range (inp.numOwnedCells + inp.numGhostCells)).map
      fun c => (inp.cellNodes c).length).length
    simp
  · show inp.numOwnedNodes ≤ (((List.range (inp.numOwnedNodes + inp.numGhostNodes)).map
      fun n => [(inp.coords n).1, (inp.coords n).2]).flatten).length / 2
    rw [List.length_flatten, List.map_map]
    have : ((List.range (inp.numOwnedNodes + inp.numGhostNodes)).map
        (List.length ∘ fun n => [(inp.coords n).1, (inp.coords n).2])) =
        List.replicate (inp.numOwnedNodes + inp.numGhostNodes) 2 := by
      rw [show (List.length ∘ fun n => [(inp.coords n).1, (inp.coords n).2]) =
        fun _ => 2 from rfl, List.map_const']
      simp
    rw [this, List.sum_replicate, smul_eq_mul]
    omega
  · intro h1 h2
    rw [make_index_maps_2d_eq]
    have howned := goCells_owned_eq nOC cells 0 emptyFace2D w0' (by omega)
      (by omega)
    have hfst := goCells_fst nOC cells 0 emptyFace2D w0'
    rw [howned, hfst]
    obtain ⟨-, -, h3, -, -⟩ := processEdges_char (meshEdges cells)
    have hlen : (processEdges emptyFace2D (meshEdges cells)).faceToNodeList.length =
        2 * (streamKeys (meshEdges cells)).length := by
      rw [h3, List.length_flatten, List.map_map]
      rw [show (List.length ∘ fun k : ℕ × ℕ => [k.1, k.2]) = fun _ => 2 from rfl,
        List.map_const', List.sum_replicate, smul_eq_mul]
      omega
    rw [hlen, Nat.mul_div_cancel_left _ (by omega)]
    have hsplit : meshEdges cells =
        meshEdges (cells.take nOC) ++ meshEdges (cells.drop nOC) := by
      rw [meshEdges, meshEdges, meshEdges, ← List.flatten_append, ← List.map_append,
        List.take_append_drop]
    obtain ⟨-, hfc, -, -, -⟩ := processEdges_char (meshEdges (cells.take nOC))
    obtain ⟨-, hfc2, -, -, -⟩ := processEdges_char (meshEdges cells)
    rw [← hfc2, hsplit, processEdges_append2, ← Nat.sub_zero nOC]
    exact facecount_mono _ _
  · unfold FlatMeshW.cell_get_type
    by_cases h : i < m.numOwnedCells <;> simp [h]
  · unfold FlatMeshW.node_get_type
    by_cases h : i < m.numOwnedNodes <;> simp [h]

theorem c9_ownership_witness :
    (make_index_maps_2d (exCells.map List.length) exCells.flatten 1 7).2 ≤
      (make_index_maps_2d (exCells.map List.length) exCells.flatten 1 7).1.faceToNodeList.length / 2 :=
  (c9_ownership exInp 0 exCells 1 7 (initialize2D exInp 0) 0).2.2.1
    (by decide) (by decide)

/-! ## Claim C8 — no degenerate-entity detection -/

/-- A malformed 2D source mesh: one owned cell with an empty node list. -/
def degInp : MeshInput2D Unit where
  numOwnedCells := 1
  numGhostCells := 0
  numOwnedNodes := 0
  numGhostNodes := 0
  cellNodes := fun _ => []
  coords := fun _ => ((), ())
  cellGID := fun _ => 0
  nodeGID := fun _ => 0

/-- C8, counterexample: the claim says construction (`initialize`
followed by `make_index_maps`) fails with a `DegenerateEntity` error when
a cell has zero nodes; the source contains no such check and no failure
path, and construction completes, exposing a flattened mesh. -/
theorem c8_counterexample :
    degInp.cellNodes 0 = [] ∧
    (make_index_maps (initialize2D degInp 0)).isSome = true := by
  constructor
  · rfl
  · decide

/-- C8 (amended): construction performs no degeneracy checks: on a 2D
mesh containing a zero-node cell (with all referenced nodes owned),
`initialize` + `make_index_maps` completes, and the degenerate cell
simply has an empty face list and an empty node list. -/
theorem c8_no_degenerate_check {T : Type} (m : FlatMeshW T)
    (cells : List (List ℕ)) (hdim : m.dim = 2)
    (hcounts : m.cellNodeCounts = cells.map List.length)
    (hflat : m.cellToNodeList = cells.flatten)
    (hb : ∀ l ∈ cells, ∀ n ∈ l, n < m.numOwnedNodes)
    (c : ℕ) (hc : c < cells.length) (hdeg : cells.getD c [] = []) :
    ∃ m', make_index_maps m = some m' ∧
      (FlatMeshW.cell_get_faces_and_dirs m' c).1 = [] ∧
      FlatMeshW.cell_get_nodes m' c = [] := by
  obtain ⟨m', tmp, hmk, hd, -, -, hcnt, hflt, hoff, -, -, -, -, -, -, -, -, -⟩ :=
    make_index_maps_record_2d m cells hdim hcounts hflat hb
  have hcount : m'.cellNodeCounts.getD c 0 = 0 := by
    rw [hcnt, hcounts, getD_map_lt cells List.length hc [] 0, hdeg]
    rfl
  refine ⟨m', hmk, ?_, ?_⟩
  · unfold FlatMeshW.cell_get_faces_and_dirs
    rw [if_pos (hd.trans hdim), hcount]
    simp only [List.take_zero]
  · unfold FlatMeshW.cell_get_nodes
    rw [hcount, List.take_zero]

theorem c8_witness :
    ∃ m', make_index_maps (initialize2D degInp 0) = some m' ∧
      (FlatMeshW.cell_get_faces_and_dirs m' 0).1 = [] ∧
      FlatMeshW.cell_get_nodes m' 0 = [] :=
  c8_no_degenerate_check (initialize2D degInp 0) [[]] (by decide) (by decide)
    (by decide) (by decide) 0 (by decide) (by decide)

/-! ## Record-level characterization of `make_index_maps` on 3D meshes -/

/-- The per-cell node sets derived by the 3D branch. -/
def perCell3D (cellFaceCounts cellToFaceList faceNodeCounts faceToNodeList :
    List ℕ) : List (List ℕ) :=
  (List.range cellFaceCounts.length).map fun c =>
    cellNodes3D faceNodeCounts faceToNodeList
      (csrSlice cellFaceCounts cellToFaceList c)

theorem make_index_maps_3d_eq (cfc ctf fnc ftn : List ℕ) :
    make_index_maps_3d cfc ctf fnc ftn =
      ((perCell3D cfc ctf fnc ftn).map List.length,
       (perCell3D cfc ctf fnc ftn).flatten) := rfl

theorem getD_range {n c : ℕ} (hc : c < n) : (List.range n).getD c 0 = c := by
  rw [List.getD_eq_getElem _ _ (by simpa using hc), List.getElem_range]

/-- Every node in a derived 3D per-cell set occurs in `faceToNodeList_`. -/
theorem perCell3D_subset (cfc ctf fnc ftn : List ℕ) :
    ∀ l ∈ perCell3D cfc ctf fnc ftn, ∀ n ∈ l, n ∈ ftn := by
  intro l hl n hn
  obtain ⟨c, -, rfl⟩ := List.mem_map.mp hl
  obtain ⟨f, -, hmem⟩ := (mem_cellNodes3D fnc ftn _ n).mp hn
  exact List.mem_of_mem_drop (List.mem_of_mem_take hmem)

/-- Master lemma: `make_index_maps` on a `dim_ == 3` record whose
face-node entries are all owned succeeds, replacing the cell-node arrays
by the CSR encoding of the derived per-cell node sets. -/
theorem make_index_maps_record_3d {T : Type} (m : FlatMeshW T)
    (hdim : m.dim = 3)
    (hb : ∀ x ∈ m.faceToNodeList, x < m.numOwnedNodes) :
    ∃ (m' : FlatMeshW T) (tmp : List (List ℕ)),
      make_index_maps m = some m' ∧
      m'.dim = m.dim ∧
      m'.cellFaceCounts = m.cellFaceCounts ∧
      m'.cellToFaceList = m.cellToFaceList ∧
      m'.faceNodeCounts = m.faceNodeCounts ∧
      m'.faceToNodeList = m.faceToNodeList ∧
      m'.faceNodeOffsets = compute_offsets m.faceNodeCounts ∧
      m'.cellFaceOffsets = compute_offsets m.cellFaceCounts ∧
      m'.cellNodeCounts = (perCell3D m.cellFaceCounts m.cellToFaceList
        m.faceNodeCounts m.faceToNodeList).map List.length ∧
      m'.cellToNodeList = (perCell3D m.cellFaceCounts m.cellToFaceList
        m.faceNodeCounts m.faceToNodeList).flatten ∧
      m'.cellNodeOffsets = compute_offsets ((perCell3D m.cellFaceCounts
        m.cellToFaceList m.faceNodeCounts m.faceToNodeList).map List.length) ∧
      m'.nodeCellCounts = tmp.map List.length ∧
      m'.nodeToCellList = tmp.flatten ∧
      m'.nodeCellOffsets = compute_offsets (tmp.map List.length) := by
  have hbs : ∀ l ∈ perCell3D m.cellFaceCounts m.cellToFaceList
      m.faceNodeCounts m.faceToNodeList, ∀ n ∈ l, n < m.numOwnedNodes :=
    fun l hl n hn => hb n (perCell3D_subset _ _ _ _ l hl n hn)
  obtain ⟨tmp, hp1, -, -⟩ :=
    node_to_cell_phase_spec m.numOwnedNodes _ hbs
  have hmk : make_index_maps m = some
      { m with
        faceNodeOffsets := compute_offsets m.faceNodeCounts
        cellFaceOffsets := compute_offsets m.cellFaceCounts
        cellNodeCounts := (perCell3D m.cellFaceCounts m.cellToFaceList
          m.faceNodeCounts m.faceToNodeList).map List.length
        cellToNodeList := (perCell3D m.cellFaceCounts m.cellToFaceList
          m.faceNodeCounts m.faceToNodeList).flatten
        cellNodeOffsets := compute_offsets ((perCell3D m.cellFaceCounts
          m.cellToFaceList m.faceNodeCounts m.faceToNodeList).map List.length)
        nodeCellCounts := tmp.map List.length
        nodeToCellList := tmp.flatten
        nodeCellOffsets := compute_offsets (tmp.map List.length) } := by
    unfold make_index_maps
    rw [if_neg (by omega), if_pos hdim]
    simp only [make_index_maps_3d_eq]
    rw [hp1]
  exact ⟨_, tmp, hmk, rfl, rfl, rfl, rfl, rfl, rfl, rfl, rfl, rfl, rfl, rfl,
    rfl, rfl⟩

/-! ## Claim C5 — 3D cell-to-node order -/

/-- C5, counterexample: one 3D cell with faces `[2,1]` and `[0,1]`; the
first-seen (insertion) order of the nodes across the cell's face list is
`2, 1, 0`, but the derived cell-to-node list is produced by iterating a
`std::set<int>` and comes out in ascending index order `[0, 1, 2]`. -/
theorem c5_counterexample :
    (make_index_maps_3d [2] [0, 1] [2, 2] [2, 1, 0, 1]).2 = [0, 1, 2] ∧
    (make_index_maps_3d [2] [0, 1] [2, 2] [2, 1, 0, 1]).2 ≠ [2, 1, 0] := by
  decide

/-- C5 (amended): in 3D, every cell's derived cell-to-node list equals
the deduplicated union of the node sets of the cell's bounding faces,
listed in strictly ascending node-index order (the iteration order of
`std::set<int>`), not in first-seen order. -/
theorem c5_cell_nodes_3d {T : Type} (m : FlatMeshW T) (hdim : m.dim = 3)
    (hb : ∀ x ∈ m.faceToNodeList, x < m.numOwnedNodes) (c : ℕ) :
    ∃ m', make_index_maps m = some m' ∧
      (FlatMeshW.cell_get_nodes m' c).Pairwise (· < ·) ∧
      ∀ x, x ∈ FlatMeshW.cell_get_nodes m' c ↔
        ∃ f ∈ (FlatMeshW.cell_get_faces_and_dirs m' c).1,
          x ∈ FlatMeshW.face_get_nodes m' f := by
  obtain ⟨m', tmp, hmk, hd, hcfc, hcfl, hfnc, hftn, hfno, hcfo, hcnc, hctn,
    hcno, -, -, -⟩ := make_index_maps_record_3d m hdim hb
  have hd3 : m'.dim = 3 := hd.trans hdim
  have hnodes : FlatMeshW.cell_get_nodes m' c =
      (perCell3D m.cellFaceCounts m.cellToFaceList m.faceNodeCounts
        m.faceToNodeList).getD c [] := by
    unfold FlatMeshW.cell_get_nodes
    rw [hcnc, hctn, hcno]
    exact csrSlice_flatten _ c
  have hfaces : (FlatMeshW.cell_get_faces_and_dirs m' c).1 =
      csrSlice m.cellFaceCounts m.cellToFaceList c := by
    unfold FlatMeshW.cell_get_faces_and_dirs
    rw [if_neg (by omega)]
    show (m'.cellToFaceList.drop (m'.cellFaceOffsets.getD c 0)).take
      (m'.cellFaceCounts.getD c 0) = _
    rw [hcfl, hcfo, hcfc]
    rfl
  have hfn : ∀ f, FlatMeshW.face_get_nodes m' f =
      csrSlice m.faceNodeCounts m.faceToNodeList f := by
    intro f
    unfold FlatMeshW.face_get_nodes
    rw [if_neg (by omega), hftn, hfno, hfnc]
    rfl
  refine ⟨m', hmk, ?_, ?_⟩
  · rw [hnodes]
    by_cases hc : c < m.cellFaceCounts.length
    · rw [List.getD_eq_getElem _ _ (by simpa [perCell3D] using hc)]
      unfold perCell3D
      rw [List.getElem_map]
      exact sorted_cellNodes3D _ _ _
    · rw [List.getD_eq_default _ _ (by simpa [perCell3D] using Nat.le_of_not_lt hc)]
      exact List.Pairwise.nil
  · intro x
    rw [hnodes, hfaces]
    by_cases hc : c < m.cellFaceCounts.length
    · rw [List.getD_eq_getElem _ _ (by simpa [perCell3D] using hc)]
      unfold perCell3D
      rw [List.getElem_map, List.getElem_range, mem_cellNodes3D]
      constructor
      · rintro ⟨f, hf, hx⟩
        exact ⟨f, hf, by rw [hfn f]; exact hx⟩
      · rintro ⟨f, hf, hx⟩
        exact ⟨f, hf, by rw [hfn f] at hx; exact hx⟩
    · rw [List.getD_eq_default _ _ (by simpa [perCell3D] using Nat.le_of_not_lt hc)]
      have hslice : csrSlice m.cellFaceCounts m.cellToFaceList c = [] := by
        unfold csrSlice
        rw [List.getD_eq_default _ _ (Nat.le_of_not_lt hc), List.take_zero]
      rw [hslice]
      simp

/-- A single 3D cell with two faces, used to witness C5. -/
def ex3D : FlatMeshW Unit where
  dim := 3
  numOwnedCells := 1
  numOwnedFaces := 2
  numOwnedNodes := 3
  nodeCoords := [(), (), (), (), (), (), (), (), ()]
  cellToNodeList := []
  cellNodeCounts := []
  cellNodeOffsets := []
  cellToFaceList := [0, 1]
  cellToFaceDirs := [true, false]
  cellFaceCounts := [2]
  cellFaceOffsets := []
  faceToNodeList := [2, 1, 0, 1]
  faceNodeCounts := [2, 2]
  faceNodeOffsets := []
  nodeToCellList := []
  nodeCellCounts := []
  nodeCellOffsets := []
  cellGlobalIds := [0]
  faceGlobalIds := [0, 1]
  nodeGlobalIds := [0, 1, 2]

theorem c5_witness :
    ∃ m', make_index_maps ex3D = some m' ∧
      (FlatMeshW.cell_get_nodes m' 0).Pairwise (· < ·) ∧
      ∀ x, x ∈ FlatMeshW.cell_get_nodes m' 0 ↔
        ∃ f ∈ (FlatMeshW.cell_get_faces_and_dirs m' 0).1,
          x ∈ FlatMeshW.face_get_nodes m' f :=
  c5_cell_nodes_3d ex3D (by decide) (by decide) 0

/-! ## Claim C4 — node-to-cell inversion -/

/-- C4: after 2D reconstruction, a cell `c` is listed by
`node_get_cells(n, ALL)` iff `n` is listed by `cell_get_nodes(c)`; the
relation covers exactly the owned nodes (`nodeCellCounts_` has
`numOwnedNodes_` entries), and each node's cell list is strictly
ascending (hence duplicate-free). -/
theorem c4_node_cell_inversion {T : Type} (m : FlatMeshW T)
    (cells : List (List ℕ)) (hdim : m.dim = 2)
    (hcounts : m.cellNodeCounts = cells.map List.length)
    (hflat : m.cellToNodeList = cells.flatten)
    (hb : ∀ l ∈ cells, ∀ n ∈ l, n < m.numOwnedNodes) :
    ∃ m', make_index_maps m = some m' ∧
      m'.nodeCellCounts.length = m.numOwnedNodes ∧
      ∀ n, n < m.numOwnedNodes →
        (FlatMeshW.node_get_cells m' n ALL).Pairwise (· < ·) ∧
        ∀ c, c ∈ FlatMeshW.node_get_cells m' n ALL ↔
          n ∈ FlatMeshW.cell_get_nodes m' c := by
  obtain ⟨m', tmp, hmk, -, -, -, hcnt, hflt, hoff, -, -, -, -, hncc, hntc,
    hnco, hlen, hchar⟩ := make_index_maps_record_2d m cells hdim hcounts hflat hb
  refine ⟨m', hmk, by rw [hncc]; simpa using hlen, ?_⟩
  intro n hn
  obtain ⟨hsort, hmem⟩ := hchar n hn
  have hget : FlatMeshW.node_get_cells m' n ALL = tmp.getD n [] := by
    unfold FlatMeshW.node_get_cells
    rw [if_pos rfl, hncc, hntc, hnco]
    exact csrSlice_flatten tmp n
  have hcg : ∀ c, FlatMeshW.cell_get_nodes m' c = cells.getD c [] := by
    intro c
    unfold FlatMeshW.cell_get_nodes
    rw [hcnt, hflt, hoff, hcounts, hflat]
    exact csrSlice_flatten cells c
  rw [hget]
  refine ⟨hsort, fun c => ?_⟩
  rw [hcg c, hmem c]
  constructor
  · rintro ⟨-, h⟩; exact h
  · intro h
    refine ⟨?_, h⟩
    by_contra hc
    rw [List.getD_eq_default _ _ (Nat.le_of_not_lt hc)] at h
    cases h

theorem c4_witness :
    ∃ m', make_index_maps (initialize2D exInp 0) = some m' ∧
      m'.nodeCellCounts.length = (initialize2D exInp 0).numOwnedNodes ∧
      ∀ n, n < (initialize2D exInp 0).numOwnedNodes →
        (FlatMeshW.node_get_cells m' n ALL).Pairwise (· < ·) ∧
        ∀ c, c ∈ FlatMeshW.node_get_cells m' n ALL ↔
          n ∈ FlatMeshW.cell_get_nodes m' c :=
  c4_node_cell_inversion (initialize2D exInp 0) exCells (by decide)
    (by decide) (by decide) (by decide)

/-! ## Claims C6 and C7 — stored face orientation and owned-face count -/

theorem meshEdges_append (c₁ c₂ : List (List ℕ)) :
    meshEdges (c₁ ++ c₂) = meshEdges c₁ ++ meshEdges c₂ := by
  simp [meshEdges]

/-- An element read in range is a member. -/
theorem getD_mem {α : Type} {l : List α} {i : ℕ} (hi : i < l.length) (d : α) :
    l.getD i d ∈ l := by
  rw [List.getD_eq_getElem _ _ hi]
  exact List.getElem_mem _

/-- C6, counterexample: face 3 of the two-quad mesh is first discovered
from the traversal pair `(3, 0)` (cell 0's wrap-around edge), but its
stored node list as returned by `face_get_nodes` is `[0, 3]` — the
canonical `(min, max)` order, not the order first encountered. -/
theorem c6_counterexample :
    (meshEdges exCells).getD 3 (0, 0) = (3, 0) ∧
    (make_index_maps (initialize2D exInp 0)).map
      (fun m' => m'.cellToFaceList.getD 3 0) = some 3 ∧
    (make_index_maps (initialize2D exInp 0)).map
      (fun m' => FlatMeshW.face_get_nodes m' 3) = some [0, 3] ∧
    some [0, 3] ≠ some [3, 0] := by
  decide

/-- C6 (amended): on first discovery of a 2D face from the consecutive
node pair `(n0, n1)`, the stored node list (as returned by
`face_get_nodes`) is `(min(n0,n1), max(n0,n1))` — the canonical order,
not the order first encountered — and every occurrence of the face
appends direction flag true exactly when that traversal's leading node
equals the face's stored leading node. -/
theorem c6_face_orientation {T : Type} (m : FlatMeshW T)
    (cells : List (List ℕ)) (hdim : m.dim = 2)
    (hcounts : m.cellNodeCounts = cells.map List.length)
    (hflat : m.cellToNodeList = cells.flatten)
    (hb : ∀ l ∈ cells, ∀ n ∈ l, n < m.numOwnedNodes)
    (j : ℕ) (hj : j < (meshEdges cells).length) :
    ∃ m', make_index_maps m = some m' ∧
      FlatMeshW.face_get_nodes m' (m'.cellToFaceList.getD j 0) =
        [min ((meshEdges cells).getD j (0, 0)).1 ((meshEdges cells).getD j (0, 0)).2,
         max ((meshEdges cells).getD j (0, 0)).1 ((meshEdges cells).getD j (0, 0)).2] ∧
      m'.cellToFaceDirs.getD j false =
        decide (((meshEdges cells).getD j (0, 0)).1 =
          (FlatMeshW.face_get_nodes m' (m'.cellToFaceList.getD j 0)).getD 0 0) := by
  obtain ⟨m', tmp, hmk, hd, -, -, -, -, -, hcfl, hcfd, hftn, -, -, -, -, -, -⟩ :=
    make_index_maps_record_2d m cells hdim hcounts hflat hb
  obtain ⟨-, -, h3, h4, h5⟩ := processEdges_char (meshEdges cells)
  set es := meshEdges cells with hes
  set ks := streamKeys (meshEdges cells) with hks
  set e := es.getD j (0, 0) with he
  have hemem : e ∈ es := getD_mem hj _
  have hkmem : canonKey e ∈ ks := (mem_streamKeys es).mpr
    (List.mem_map_of_mem canonKey hemem)
  have hfidx : m'.cellToFaceList.getD j 0 = idxOf (canonKey e) ks := by
    rw [hcfl, h4, getD_map_lt es _ hj (0, 0) 0]
  have hflt : idxOf (canonKey e) ks < ks.length := idxOf_lt_length hkmem
  have hgetk : ks.getD (idxOf (canonKey e) ks) (0, 0) = canonKey e :=
    getD_idxOf hkmem (0, 0)
  have hfnodes : FlatMeshW.face_get_nodes m' (m'.cellToFaceList.getD j 0) =
      [(canonKey e).1, (canonKey e).2] := by
    unfold FlatMeshW.face_get_nodes
    rw [if_pos (hd.trans hdim), hftn, h3, hfidx,
      flatten_pairs_slice ks _ hflt, hgetk]
  refine ⟨m', hmk, ?_, ?_⟩
  · rw [hfnodes]
    rfl
  · rw [hfnodes, hcfd, h5, getD_map_lt es _ hj (0, 0) false]
    rfl

theorem c6_witness :
    ∃ m', make_index_maps (initialize2D exInp 0) = some m' ∧
      FlatMeshW.face_get_nodes m' (m'.cellToFaceList.getD 7 0) =
        [min ((meshEdges exCells).getD 7 (0, 0)).1 ((meshEdges exCells).getD 7 (0, 0)).2,
         max ((meshEdges exCells).getD 7 (0, 0)).1 ((meshEdges exCells).getD 7 (0, 0)).2] ∧
      m'.cellToFaceDirs.getD 7 false =
        decide (((meshEdges exCells).getD 7 (0, 0)).1 =
          (FlatMeshW.face_get_nodes m' (m'.cellToFaceList.getD 7 0)).getD 0 0) :=
  c6_face_orientation (initialize2D exInp 0) exCells (by decide) (by decide)
    (by decide) (by decide) 7 (by decide)

/-- C7: with owned cells a nonempty contiguous prefix of the cell range,
the recorded owned-face count is the number of distinct faces discovered
by the end of the last owned cell, and a face index is below it exactly
when the face's (canonical) node pair occurs among the owned cells'
edges — i.e. faces first discovered from owned cells are owned, faces
first discovered from ghost cells are ghost. -/
theorem c7_owned_faces {T : Type} (m : FlatMeshW T)
    (cells : List (List ℕ)) (hdim : m.dim = 2)
    (hcounts : m.cellNodeCounts = cells.map List.length)
    (hflat : m.cellToNodeList = cells.flatten)
    (hb : ∀ l ∈ cells, ∀ n ∈ l, n < m.numOwnedNodes)
    (h1 : 1 ≤ m.numOwnedCells) (h2 : m.numOwnedCells ≤ cells.length) :
    ∃ m', make_index_maps m = some m' ∧
      FlatMeshW.num_owned_faces m' =
        (streamKeys (meshEdges (cells.take m.numOwnedCells))).length ∧
      ∀ f, f < (streamKeys (meshEdges cells)).length →
        (f < FlatMeshW.num_owned_faces m' ↔
          ((FlatMeshW.face_get_nodes m' f).getD 0 0,
           (FlatMeshW.face_get_nodes m' f).getD 1 0) ∈
            (meshEdges (cells.take m.numOwnedCells)).map canonKey) := by
  obtain ⟨m', tmp, hmk, hd, -, -, -, -, -, -, -, hftn, hnof, -, -, -, -, -⟩ :=
    make_index_maps_record_2d m cells hdim hcounts hflat hb
  obtain ⟨-, -, h3, -, -⟩ := processEdges_char (meshEdges cells)
  obtain ⟨-, hfc, -, -, -⟩ := processEdges_char (meshEdges (cells.take m.numOwnedCells))
  have howned : FlatMeshW.num_owned_faces m' =
      (streamKeys (meshEdges (cells.take m.numOwnedCells))).length := by
    unfold FlatMeshW.num_owned_faces
    rw [hnof, goCells_owned_eq m.numOwnedCells cells 0 emptyFace2D
      m.numOwnedFaces (by omega) (by omega), Nat.sub_zero, hfc]
  -- the owned-prefix keys are a prefix of the full key list
  have hsplit : meshEdges cells =
      meshEdges (cells.take m.numOwnedCells) ++
      meshEdges (cells.drop m.numOwnedCells) := by
    rw [← meshEdges_append, List.take_append_drop]
  obtain ⟨t, ht⟩ : ∃ t, streamKeys (meshEdges cells) =
      streamKeys (meshEdges (cells.take m.numOwnedCells)) ++ t := by
    rw [streamKeys, streamKeys, hsplit, List.map_append, fsAux_append]
    exact fsAux_extends _ _
  refine ⟨m', hmk, howned, ?_⟩
  intro f hf
  have hgetks : ((FlatMeshW.face_get_nodes m' f).getD 0 0,
      (FlatMeshW.face_get_nodes m' f).getD 1 0) =
      (streamKeys (meshEdges cells)).getD f (0, 0) := by
    unfold FlatMeshW.face_get_nodes
    rw [if_pos (hd.trans hdim), hftn, h3, flatten_pairs_slice _ f hf]
    rfl
  rw [hgetks, howned]
  constructor
  · intro hlt
    have hpre : (streamKeys (meshEdges cells)).getD f (0, 0) =
        (streamKeys (meshEdges (cells.take m.numOwnedCells))).getD f (0, 0) := by
      rw [ht, getD_append_left hlt]
    rw [hpre]
    exact (mem_streamKeys _).mp (getD_mem hlt _)
  · intro hmem
    have hkm : (streamKeys (meshEdges cells)).getD f (0, 0) ∈
        streamKeys (meshEdges (cells.take m.numOwnedCells)) :=
      (mem_streamKeys _).mpr hmem
    have hidx : idxOf ((streamKeys (meshEdges cells)).getD f (0, 0))
        (streamKeys (meshEdges cells)) = f :=
      idxOf_getD (nodup_streamKeys _) hf (0, 0)
    rw [ht, idxOf_append_of_mem (ht ▸ hkm)] at hidx
    have := idxOf_lt_length hkm
    rw [← ht] at hidx
    omega

theorem c7_witness :
    ∃ m', make_index_maps (initialize2D exInp 0) = some m' ∧
      FlatMeshW.num_owned_faces m' =
        (streamKeys (meshEdges (exCells.take 2))).length ∧
      ∀ f, f < (streamKeys (meshEdges exCells)).length →
        (f < FlatMeshW.num_owned_faces m' ↔
          ((FlatMeshW.face_get_nodes m' f).getD 0 0,
           (FlatMeshW.face_get_nodes m' f).getD 1 0) ∈
            (meshEdges (exCells.take 2)).map canonKey) :=
  c7_owned_faces (initialize2D exInp 0) exCells (by decide) (by decide)
    (by decide) (by decide) (by decide) (by decide)

/-! ## Claim C1 — interior/boundary face incidence: counting lemmas -/

/-- With `k.1 < k.2`, the directed edges whose canonical key is `k` are
exactly the two orientations of `k`. -/
theorem canonKey_cases {k : ℕ × ℕ} (hk : k.1 < k.2) (e : ℕ × ℕ) :
    canonKey e = k ↔ (e = (k.1, k.2) ∨ e = (k.2, k.1)) := by
  constructor
  · intro h
    have h1 : min e.1 e.2 = k.1 := congrArg Prod.fst h
    have h2 : max e.1 e.2 = k.2 := congrArg Prod.snd h
    rcases Nat.le_total e.1 e.2 with hle | hle
    · left
      have := Nat.min_eq_left hle
      have := Nat.max_eq_right hle
      exact Prod.ext (by omega) (by omega)
    · right
      have := Nat.min_eq_right hle
      have := Nat.max_eq_left hle
      exact Prod.ext (by omega) (by omega)
  · rintro (rfl | rfl)
    · unfold canonKey
      exact Prod.ext (Nat.min_eq_left hk.le) (Nat.max_eq_right hk.le)
    · unfold canonKey
      exact Prod.ext (Nat.min_eq_right hk.le) (Nat.max_eq_left hk.le)

/-- In a cell whose canonical edge keys are distinct, at most one edge
matches any given key. -/
theorem countP_key_le_one (k : ℕ × ℕ) (ec : List (ℕ × ℕ))
    (h : ((ec.map canonKey)).Nodup) :
    ec.countP (fun e => decide (canonKey e = k)) ≤ 1 := by
  induction ec with
  | nil => simp
  | cons e rest ih =>
    have hrest : ((rest.map canonKey)).Nodup := (List.nodup_cons.mp (by simpa using h)).2
    by_cases he : canonKey e = k
    · have hz : rest.countP (fun e => decide (canonKey e = k)) = 0 := by
        rw [List.countP_eq_zero]
        intro a ha hc
        have : canonKey a = k := of_decide_eq_true hc
        have hnot : canonKey e ∉ rest.map canonKey :=
          (List.nodup_cons.mp (by simpa using h)).1
        exact hnot (he ▸ this ▸ List.mem_map_of_mem canonKey ha)
      rw [List.countP_cons_of_pos _ _ (by simpa using he), hz]
    · rw [List.countP_cons_of_neg _ _ (by simpa using he)]
      exact ih hrest

/-- In a duplicate-free list, the number of elements equal to `x` is one
if present, zero otherwise. -/
theorem countP_eq_decide_mem {α : Type} [DecidableEq α] {l : List α}
    (h : l.Nodup) (x : α) :
    l.countP (fun y => decide (y = x)) = if x ∈ l then 1 else 0 := by
  induction l with
  | nil => simp
  | cons a rest ih =>
    obtain ⟨hna, hnd⟩ := List.nodup_cons.mp h
    by_cases hax : a = x
    · subst hax
      rw [List.countP_cons_of_pos _ _ (by simp), ih hnd, if_neg hna,
        if_pos (List.mem_cons_self a rest)]
    · rw [List.countP_cons_of_neg _ _ (by simpa using hax), ih hnd]
      have : (x ∈ a :: rest) ↔ x ∈ rest := by
        simp only [List.mem_cons]
        exact ⟨fun h' => h'.resolve_left fun he => hax he.symm, Or.inr⟩
      rw [if_congr this rfl rfl]

/-- A duplicate-free list over a two-element universe has at most two
elements, and both occur when it has exactly two. -/
theorem nodup_two_set {α : Type} {l : List α} {u v : α} (h : l.Nodup)
    (hsub : ∀ x ∈ l, x = u ∨ x = v) :
    l.length ≤ 2 ∧ (l.length = 2 → u ∈ l ∧ v ∈ l) := by
  match l, h, hsub with
  | [], _, _ => exact ⟨by simp, by simp⟩
  | [x], _, _ => exact ⟨by simp, by simp⟩
  | x :: y :: rest, h, hsub =>
    have hxy : x ≠ y := by
      intro he
      exact (List.nodup_cons.mp h).1 (he ▸ List.mem_cons_self y rest)
    have hx := hsub x (List.mem_cons_self _ _)
    have hy := hsub y (List.mem_cons_of_mem _ (List.mem_cons_self _ _))
    have hrest : rest = [] := by
      by_contra hne
      obtain ⟨z, hz⟩ := List.exists_mem_of_ne_nil rest hne
      have hzx : z ≠ x := by
        intro he
        exact (List.nodup_cons.mp h).1 (he ▸ List.mem_cons_of_mem _ hz)
      have hzy : z ≠ y := by
        intro he
        exact (List.nodup_cons.mp (List.nodup_cons.mp h).2).1 (he ▸ hz)
      have hz' := hsub z (List.mem_cons_of_mem _ (List.mem_cons_of_mem _ hz))
      rcases hx with rfl | rfl <;> rcases hy with rfl | rfl <;>
        rcases hz' with rfl | rfl <;> first | exact hzx rfl | exact hzy rfl |
        exact hxy rfl
    subst hrest
    refine ⟨by simp, fun _ => ?_⟩
    rcases hx with rfl | rfl
    · rcases hy with rfl | rfl
      · exact absurd rfl hxy
      · exact ⟨List.mem_cons_self _ _,
          List.mem_cons_of_mem _ (List.mem_cons_self _ _)⟩
    · rcases hy with rfl | rfl
      · exact ⟨List.mem_cons_of_mem _ (List.mem_cons_self _ _),
          List.mem_cons_self _ _⟩
      · exact absurd rfl hxy

/-- Indexing a list by `range`: mapping a function of the entries over
the index range equals mapping it over the list. -/
theorem map_range_getD {α β : Type} (l : List α) (d : α) (G : α → β) :
    (List.range l.length).map (fun c => G (l.getD c d)) = l.map G := by
  induction l using List.reverseRecOn with
  | nil => rfl
  | append_singleton xs x ih =>
    rw [List.length_append, List.length_singleton, List.range_succ,
      List.map_append, List.map_append]
    congr 1
    · rw [← ih]
      apply List.map_congr_left
      intro c hc
      rw [getD_append_left (List.mem_range.mp hc)]
    · have : (xs ++ [x]).getD xs.length d = x := by
        rw [List.getD_eq_getElem _ _ (by simp),
          List.getElem_append_right (Nat.le_refl _)]
        simp
      simp [this]

/-- Occurrence blocks tagged by distinct cell indices, each of length at
most one, have pairwise distinct cell tags. -/
theorem nodup_fst_blocks (N : ℕ) (g : ℕ → List (ℕ × Bool))
    (h1 : ∀ c, ∀ p ∈ g c, p.1 = c) (h2 : ∀ c, (g c).length ≤ 1) :
    ((((List.range N).map g).flatten).map Prod.fst).Nodup := by
  induction N with
  | zero => simp
  | succ n ih =>
    rw [List.range_succ, List.map_append, List.flatten_append, List.map_append]
    refine List.Nodup.append ih ?_ ?_
    · simp only [List.map_singleton, List.flatten_cons, List.flatten_nil,
        List.append_nil]
      cases hgn : g n with
      | nil => simp
      | cons p rest =>
        have hlen := h2 n
        rw [hgn] at hlen
        have hrest : rest = [] := by
          rw [List.length_cons] at hlen
          exact List.length_eq_zero.mp (by omega)
        subst hrest
        simp
    · intro a ha hb
      simp only [List.map_singleton, List.flatten_cons, List.flatten_nil,
        List.append_nil] at hb
      obtain ⟨p, hp, rfl⟩ := List.mem_map.mp hb
      have hpn : p.1 = n := h1 n p hp
      obtain ⟨q, hq, hqa⟩ := List.mem_map.mp ha
      obtain ⟨blk, hblk, hqblk⟩ := List.mem_flatten.mp hq
      obtain ⟨c, hc, rfl⟩ := List.mem_map.mp hblk
      have hqc : q.1 = c := h1 c q hqblk
      have : c < n := List.mem_range.mp hc
      omega

/-! ## Claim C1 — statement ingredients -/

/-- A closed, non-degenerate 2D input mesh: no edge joins a node to
itself, no directed edge occurs twice (each undirected edge is traversed
at most once in each direction, i.e. the mesh is manifold-with-boundary
and consistently oriented), and no single cell traverses the same
undirected edge twice. -/
def closedNonDeg (cells : List (List ℕ)) : Prop :=
  (∀ e ∈ meshEdges cells, e.1 ≠ e.2) ∧
  (meshEdges cells).Nodup ∧
  (∀ l ∈ cells, ((cellEdges l).map canonKey).Nodup)

/-- Number of directed edges of the input whose canonical (unordered)
key is `k`: 2 for an interior edge of a closed non-degenerate mesh, 1
for a boundary edge. -/
def keyMult (cells : List (List ℕ)) (k : ℕ × ℕ) : ℕ :=
  (meshEdges cells).countP (fun e => decide (canonKey e = k))

/-- The canonical node pair of face `f` as stored, read back through
`face_get_nodes`. -/
def faceKey2D {T : Type} (m' : FlatMeshW T) (f : ℕ) : ℕ × ℕ :=
  ((FlatMeshW.face_get_nodes m' f).getD 0 0,
   (FlatMeshW.face_get_nodes m' f).getD 1 0)

/-- All occurrences of face index `f` across the cells' face lists
(read through `cell_get_faces_and_dirs`), tagged with the cell index and
the direction flag of the occurrence. -/
def faceOccurrences {T : Type} (m' : FlatMeshW T) (numCells f : ℕ) :
    List (ℕ × Bool) :=
  (((List.range numCells).map fun c =>
    ((((FlatMeshW.cell_get_faces_and_dirs m' c).1).zip
      ((FlatMeshW.cell_get_faces_and_dirs m' c).2)).filter
      (fun p => decide (p.1 = f))).map fun p => (c, p.2))).flatten

/-- C1: after 2D reconstruction of a closed, non-degenerate mesh, every
face index is the canonical key of either one or two input edges; it
occurs in the cells' face lists exactly that many times; the occurrences
lie in pairwise-distinct cells; and an interior face (key multiplicity
2) carries direction flag true in exactly one of its two cells. -/
theorem c1_interior_boundary {T : Type} (m : FlatMeshW T)
    (cells : List (List ℕ)) (hdim : m.dim = 2)
    (hcounts : m.cellNodeCounts = cells.map List.length)
    (hflat : m.cellToNodeList = cells.flatten)
    (hb : ∀ l ∈ cells, ∀ n ∈ l, n < m.numOwnedNodes)
    (hmesh : closedNonDeg cells)
    (f : ℕ) (hf : f < (streamKeys (meshEdges cells)).length) :
    ∃ m', make_index_maps m = some m' ∧
      (keyMult cells (faceKey2D m' f) = 1 ∨ keyMult cells (faceKey2D m' f) = 2) ∧
      (faceOccurrences m' cells.length f).length = keyMult cells (faceKey2D m' f) ∧
      ((faceOccurrences m' cells.length f).map Prod.fst).Nodup ∧
      (keyMult cells (faceKey2D m' f) = 2 →
        (faceOccurrences m' cells.length f).countP (fun p => p.2) = 1) := by
  obtain ⟨hndeg, hnodup, hcellkeys⟩ := hmesh
  obtain ⟨m', tmp, hmk, hd, -, -, hcnt, -, hoff, hcfl, hcfd, hftn, -, -, -, -,
    -, -⟩ := make_index_maps_record_2d m cells hdim hcounts hflat hb
  obtain ⟨-, -, h3, -, -⟩ := processEdges_char (meshEdges cells)
  -- the face's stored key
  have hkey : faceKey2D m' f = (streamKeys (meshEdges cells)).getD f (0, 0) := by
    unfold faceKey2D FlatMeshW.face_get_nodes
    rw [if_pos (hd.trans hdim), hftn, h3, flatten_pairs_slice _ f hf]
    rfl
  have hkmem : (streamKeys (meshEdges cells)).getD f (0, 0) ∈
      (meshEdges cells).map canonKey :=
    (mem_streamKeys _).mp (getD_mem hf _)
  obtain ⟨e₀, he₀, he₀k⟩ := List.mem_map.mp hkmem
  have hklt : ((streamKeys (meshEdges cells)).getD f (0, 0)).1 <
      ((streamKeys (meshEdges cells)).getD f (0, 0)).2 := by
    have hne := hndeg e₀ he₀
    have h1 : min e₀.1 e₀.2 = ((streamKeys (meshEdges cells)).getD f (0, 0)).1 :=
      congrArg Prod.fst he₀k
    have h2 : max e₀.1 e₀.2 = ((streamKeys (meshEdges cells)).getD f (0, 0)).2 :=
      congrArg Prod.snd he₀k
    rcases Nat.le_total e₀.1 e₀.2 with hle | hle
    · have := Nat.min_eq_left hle
      have := Nat.max_eq_right hle
      omega
    · have := Nat.min_eq_right hle
      have := Nat.max_eq_left hle
      omega
  refine ⟨m', hmk, ?_⟩
  rw [hkey]
  -- local abbreviations (plain terms, no lets)
  -- mapper e = face index of edge e; dirm e = its direction flag
  -- block equalities for the per-cell face/dir slices
  have hslice1 : ∀ c, (FlatMeshW.cell_get_faces_and_dirs m' c).1 =
      (cells.map fun l => (cellEdges l).map
        (fun e => idxOf (canonKey e) (streamKeys (meshEdges cells)))).getD c [] := by
    intro c
    unfold FlatMeshW.cell_get_faces_and_dirs
    rw [if_pos (hd.trans hdim)]
    show (m'.cellToFaceList.drop (m'.cellNodeOffsets.getD c 0)).take
      (m'.cellNodeCounts.getD c 0) = _
    rw [hcfl, cellToFaceList_blocks, hcnt, hcounts, hoff]
    exact slice_blocks cells _ (fun l => by
      rw [List.length_map, length_cellEdges]) c
  have hslice2 : ∀ c, (FlatMeshW.cell_get_faces_and_dirs m' c).2 =
      (cells.map fun l => (cellEdges l).map
        (fun e => decide (e.1 = min e.1 e.2))).getD c [] := by
    intro c
    unfold FlatMeshW.cell_get_faces_and_dirs
    rw [if_pos (hd.trans hdim)]
    show (m'.cellToFaceDirs.drop (m'.cellNodeOffsets.getD c 0)).take
      (m'.cellNodeCounts.getD c 0) = _
    rw [hcfd, cellToFaceDirs_blocks, hcnt, hcounts, hoff]
    exact slice_blocks cells _ (fun l => by
      rw [List.length_map, length_cellEdges]) c
  -- the zipped (face, dir) pairs of cell c, for c in range
  have hpairs : ∀ c, c < cells.length →
      ((FlatMeshW.cell_get_faces_and_dirs m' c).1).zip
        ((FlatMeshW.cell_get_faces_and_dirs m' c).2) =
      (cellEdges (cells.getD c [])).map
        (fun e => (idxOf (canonKey e) (streamKeys (meshEdges cells)),
                   decide (e.1 = min e.1 e.2))) := by
    intro c hc
    rw [hslice1 c, hslice2 c,
      getD_map_lt cells _ hc [] [], getD_map_lt cells _ hc [] []]
    exact List.zip_map' _ _ _
  -- membership of a cell's edges in the full stream
  have hsubes : ∀ c, c < cells.length →
      ∀ e ∈ cellEdges (cells.getD c []), e ∈ meshEdges cells := by
    intro c hc e he
    rw [meshEdges, List.mem_flatten]
    refine ⟨cellEdges (cells.getD c []), ?_, he⟩
    exact List.mem_map_of_mem cellEdges (getD_mem hc [])
  -- face index = f iff canonical key = stored key, for edges of the stream
  have hidx_iff : ∀ e ∈ meshEdges cells,
      (idxOf (canonKey e) (streamKeys (meshEdges cells)) = f ↔
        canonKey e = (streamKeys (meshEdges cells)).getD f (0, 0)) := by
    intro e he
    have hmem : canonKey e ∈ streamKeys (meshEdges cells) :=
      (mem_streamKeys _).mpr (List.mem_map_of_mem canonKey he)
    constructor
    · intro h
      rw [← h, getD_idxOf hmem]
    · intro h
      rw [h]
      exact idxOf_getD (nodup_streamKeys _) hf (0, 0)
  -- per-cell block length = number of the cell's edges matching the key
  have hlen_block : ∀ c, c < cells.length →
      (((((FlatMeshW.cell_get_faces_and_dirs m' c).1).zip
        ((FlatMeshW.cell_get_faces_and_dirs m' c).2)).filter
        (fun p => decide (p.1 = f))).map (fun p => ((c, p.2) : ℕ × Bool))).length =
      (cellEdges (cells.getD c [])).countP
        (fun e => decide (canonKey e = (streamKeys (meshEdges cells)).getD f (0, 0))) := by
    intro c hc
    rw [List.length_map, ← List.countP_eq_length_filter, hpairs c hc,
      List.countP_map]
    exact List.countP_congr fun e he => by
      simp only [Function.comp_apply, decide_eq_true_eq]
      exact hidx_iff e (hsubes c hc e he)
  -- the multiplicity equals the sum over cells
  have hmult : keyMult cells ((streamKeys (meshEdges cells)).getD f (0, 0)) =
      (cells.map fun l => (cellEdges l).countP
        (fun e => decide (canonKey e = (streamKeys (meshEdges cells)).getD f (0, 0)))).sum := by
    unfold keyMult
    rw [meshEdges, List.countP_flatten, List.map_map]
    rfl
  -- conjunct 2: total occurrence count
  have hocc_len : (faceOccurrences m' cells.length f).length =
      keyMult cells ((streamKeys (meshEdges cells)).getD f (0, 0)) := by
    unfold faceOccurrences
    rw [List.length_flatten, List.map_map, hmult]
    rw [← map_range_getD cells ([] : List ℕ)
      (fun l => (cellEdges l).countP
        (fun e => decide (canonKey e = (streamKeys (meshEdges cells)).getD f (0, 0))))]
    apply congrArg
    exact List.map_congr_left fun c hc => hlen_block c (List.mem_range.mp hc)
  -- the filtered matching edges of the whole stream
  have hS := List.Nodup.filter
    (fun e => decide (canonKey e = (streamKeys (meshEdges cells)).getD f (0, 0)))
    hnodup
  have hSsub : ∀ x ∈ (meshEdges cells).filter
      (fun e => decide (canonKey e = (streamKeys (meshEdges cells)).getD f (0, 0))),
      x = (((streamKeys (meshEdges cells)).getD f (0, 0)).1,
           ((streamKeys (meshEdges cells)).getD f (0, 0)).2) ∨
      x = (((streamKeys (meshEdges cells)).getD f (0, 0)).2,
           ((streamKeys (meshEdges cells)).getD f (0, 0)).1) := by
    intro x hx
    have := (List.mem_filter.mp hx).2
    exact (canonKey_cases hklt x).mp (of_decide_eq_true this)
  obtain ⟨hle2, hboth⟩ := nodup_two_set hS hSsub
  have hSlen : ((meshEdges cells).filter
      (fun e => decide (canonKey e = (streamKeys (meshEdges cells)).getD f (0, 0)))).length =
      keyMult cells ((streamKeys (meshEdges cells)).getD f (0, 0)) :=
    (List.countP_eq_length_filter _ _).symm
  have hge1 : 1 ≤ keyMult cells ((streamKeys (meshEdges cells)).getD f (0, 0)) := by
    rw [← hSlen]
    have : e₀ ∈ (meshEdges cells).filter
        (fun e => decide (canonKey e = (streamKeys (meshEdges cells)).getD f (0, 0))) :=
      List.mem_filter.mpr ⟨he₀, decide_eq_true he₀k⟩
    exact List.length_pos.mpr (List.ne_nil_of_mem this)
  refine ⟨by omega, hocc_len, ?_, ?_⟩
  -- conjunct 3: occurrences in pairwise distinct cells
  · unfold faceOccurrences
    apply nodup_fst_blocks
    · intro c p hp
      obtain ⟨q, -, rfl⟩ := List.mem_map.mp hp
      rfl
    · intro c
      by_cases hc : c < cells.length
      · rw [hlen_block c hc]
        exact countP_key_le_one _ _ (hcellkeys _ (getD_mem hc []))
      · have hzip_nil : ((FlatMeshW.cell_get_faces_and_dirs m' c).1).zip
            ((FlatMeshW.cell_get_faces_and_dirs m' c).2) = [] := by
          rw [hslice1 c,
            List.getD_eq_default _ _ (by simpa using Nat.le_of_not_lt hc)]
          rfl
        rw [hzip_nil]
        simp
  -- conjunct 4: exactly one direction-true occurrence for interior faces
  · intro h2
    have hu : (((streamKeys (meshEdges cells)).getD f (0, 0)).1,
        ((streamKeys (meshEdges cells)).getD f (0, 0)).2) ∈ meshEdges cells := by
      have := (hboth (by omega)).1
      exact (List.mem_filter.mp this).1
    -- per-cell direction-true count = occurrences of the forward edge
    have hdir_block : ∀ c, c < cells.length →
        (((((FlatMeshW.cell_get_faces_and_dirs m' c).1).zip
          ((FlatMeshW.cell_get_faces_and_dirs m' c).2)).filter
          (fun p => decide (p.1 = f))).map (fun p => ((c, p.2) : ℕ × Bool))).countP
          (fun p => p.2) =
        (cellEdges (cells.getD c [])).countP
          (fun e => decide (e = (((streamKeys (meshEdges cells)).getD f (0, 0)).1,
            ((streamKeys (meshEdges cells)).getD f (0, 0)).2))) := by
      intro c hc
      rw [List.countP_map, List.countP_filter, hpairs c hc, List.countP_map]
      apply List.countP_congr
      intro e he
      have hees := hsubes c hc e he
      simp only [Function.comp_apply, Bool.and_eq_true, decide_eq_true_eq]
      constructor
      · rintro ⟨hdir, hidx⟩
        have hck : canonKey e = (streamKeys (meshEdges cells)).getD f (0, 0) :=
          (hidx_iff e hees).mp hidx
        rcases (canonKey_cases hklt e).mp hck with rfl | rfl
        · rfl
        · exact absurd hdir (by
            simp only []
            have : min ((streamKeys (meshEdges cells)).getD f (0, 0)).2
                ((streamKeys (meshEdges cells)).getD f (0, 0)).1 =
                ((streamKeys (meshEdges cells)).getD f (0, 0)).1 :=
              Nat.min_eq_right hklt.le
            omega)
      · rintro rfl
        refine ⟨?_, (hidx_iff _ hees).mpr ((canonKey_cases hklt _).mpr (Or.inl rfl))⟩
        exact (Nat.min_eq_left hklt.le).symm
    have hcount : (faceOccurrences m' cells.length f).countP (fun p => p.2) =
        (meshEdges cells).countP
          (fun e => decide (e = (((streamKeys (meshEdges cells)).getD f (0, 0)).1,
            ((streamKeys (meshEdges cells)).getD f (0, 0)).2))) := by
      unfold faceOccurrences
      rw [List.countP_flatten, List.map_map]
      rw [show (meshEdges cells).countP
          (fun e => decide (e = (((streamKeys (meshEdges cells)).getD f (0, 0)).1,
            ((streamKeys (meshEdges cells)).getD f (0, 0)).2))) =
          (cells.map fun l => (cellEdges l).countP
            (fun e => decide (e = (((streamKeys (meshEdges cells)).getD f (0, 0)).1,
              ((streamKeys (meshEdges cells)).getD f (0, 0)).2)))).sum by
        rw [meshEdges, List.countP_flatten, List.map_map]; rfl]
      rw [← map_range_getD cells ([] : List ℕ)
        (fun l => (cellEdges l).countP
          (fun e => decide (e = (((streamKeys (meshEdges cells)).getD f (0, 0)).1,
            ((streamKeys (meshEdges cells)).getD f (0, 0)).2))))]
      apply congrArg
      exact List.map_congr_left fun c hc => hdir_block c (List.mem_range.mp hc)
    rw [hcount, countP_eq_decide_mem hnodup, if_pos hu]

theorem c1_witness :
    ∃ m', make_index_maps (initialize2D exInp 0) = some m' ∧
      (keyMult exCells (faceKey2D m' 1) = 1 ∨ keyMult exCells (faceKey2D m' 1) = 2) ∧
      (faceOccurrences m' exCells.length 1).length = keyMult exCells (faceKey2D m' 1) ∧
      ((faceOccurrences m' exCells.length 1).map Prod.fst).Nodup ∧
      (keyMult exCells (faceKey2D m' 1) = 2 →
        (faceOccurrences m' exCells.length 1).countP (fun p => p.2) = 1) :=
  c1_interior_boundary (initialize2D exInp 0) exCells (by decide) (by decide)
    (by decide) (by decide) (by unfold closedNonDeg; decide) 1 (by decide)

end Wonton
